import Mathlib

/-!
Verification of the arithmetic-circuit graph optimizer in `src/graph.rs`
(circom-witness-rs).

The Rust code is shallowly embedded:
* `U256` values are `Nat` (with explicit `% 2 ^ 256` where the Rust type wraps);
* `Fr` (the BN254 scalar-field element, stored in Montgomery form in Rust) is
  modelled by the canonical integer it represents, a `Nat` that is `< M` for
  every `Fr` the Rust code can construct;
* panics (`assert!`, `unimplemented!`, out-of-range indexing, `unwrap`) are
  modelled by `Option`, `none` meaning the call aborts;
* the thread-local random generator is an explicit stream of draws threaded
  through the probabilistic passes.
-/

/-- Modelled from the spec: the prime modulus `M` comes from `src/field.rs`,
which is not under `src/`.  The spec fixes it as the scalar field of a
pairing-friendly curve, and `graph.rs` pins the curve via `ark_bn254::Fr`:
this is the BN254 scalar-field prime. -/
def M : Nat := 21888242871839275222246405745257275088548364400416034343698204186575808495617

/-- Closed enumeration of binary operations (graph.rs `Operation`). -/
inductive Operation where
  | Mul
  | MMul
  | Add
  | Sub
  | Eq
  | Neq
  | Lt
  | Gt
  | Leq
  | Geq
  | Lor
  | Shl
  | Shr
  | Band
deriving DecidableEq, Repr

/-- Graph nodes (graph.rs `Node`).  `Constant` carries a raw 256-bit value,
`MontConstant` carries an `Fr` (modelled by its canonical value). -/
inductive Node where
  | Input (i : Nat)
  | Constant (c : Nat)
  | MontConstant (c : Nat)
  | Op (op : Operation) (a : Nat) (b : Nat)
deriving DecidableEq, Repr

/-- Models `Fr::new(c.into())` from arkworks: the field element whose
canonical value is `c mod M`. -/
def frNew (c : Nat) : Nat := c % M

/-- Models graph.rs `compute_shl_uint`: `debug_assert!(b < 256)`, then shift
left by the least-significant 64-bit limb of `b`, wrapping to 256 bits. -/
def compute_shl_uint (a b : Nat) : Option Nat :=
  if b < 256 then some ((a <<< (b % 2 ^ 64)) % 2 ^ 256) else none

/-- Models graph.rs `compute_shr_uint`: `debug_assert!(b < 256)`, then shift
right by the least-significant 64-bit limb of `b`. -/
def compute_shr_uint (a b : Nat) : Option Nat :=
  if b < 256 then some (a >>> (b % 2 ^ 64)) else none

/-- Models `U256::to_le_bytes` into a `[u8; 64]` annotation as it is called in
graph.rs: the little-endian bytes of the 256-bit value padded to 64 bytes. -/
def toLeBytes64 (x : Nat) : List Nat :=
  (List.range 64).map (fun i => x / 2 ^ (8 * i) % 256)

/-- Models graph.rs `u8_to_u64_array`: asserts the input is exactly 32 bytes
(`none` = the assert fires), then packs each 8-byte little-endian chunk into
a 64-bit limb. -/
def u8_to_u64_array (input : List Nat) : Option (List Nat) :=
  if input.length = 32 then
    some ((List.range 4).map (fun i =>
      ((List.range 8).map (fun j => input.getD (8 * i + j) 0 * 2 ^ (8 * j))).sum))
  else none

/-- Models `Fr::from(BigInt::new(limbs))` from arkworks: interprets four
64-bit limbs as an integer and converts it to `Fr`, panicking (`none`) when
the integer is not a canonical representative below `M`. -/
def frFromBigInt (limbs : List Nat) : Option Nat :=
  let v := limbs.getD 0 0 + limbs.getD 1 0 * 2 ^ 64 + limbs.getD 2 0 * 2 ^ 128 +
    limbs.getD 3 0 * 2 ^ 192
  if v < M then some v else none

/-- Models graph.rs `compute_shl_Fr`: convert both `Fr` operands to `U256`
(the canonical value, the identity in this model), shift, re-encode the
64-byte result through `u8_to_u64_array`, and build an `Fr` from the limbs. -/
def compute_shl_Fr (a b : Nat) : Option Nat :=
  match compute_shl_uint a b with
  | none => none
  | some r =>
    match u8_to_u64_array (toLeBytes64 r) with
    | none => none
    | some limbs => frFromBigInt limbs

/-- Models graph.rs `compute_shr_Fr`. -/
def compute_shr_Fr (a b : Nat) : Option Nat :=
  match compute_shr_uint a b with
  | none => none
  | some r =>
    match u8_to_u64_array (toLeBytes64 r) with
    | none => none
    | some limbs => frFromBigInt limbs

/-- Models graph.rs `compute_bitand_Fr`. -/
def compute_bitand_Fr (a b : Nat) : Option Nat :=
  match u8_to_u64_array (toLeBytes64 (a &&& b)) with
  | none => none
  | some limbs => frFromBigInt limbs

/-- Models graph.rs `Operation::eval` on raw `U256` residues.  `Sub` is
`a.add_mod(M - b, M)` where `M - b` is checked 256-bit subtraction, and the
`MMul` arm is `unimplemented!`. -/
def Operation.eval : Operation → Nat → Nat → Option Nat
  | .Add, a, b => some ((a + b) % M)
  | .Sub, a, b => if b ≤ M then some ((a + (M - b)) % M) else none
  | .Mul, a, b => some (a * b % M)
  | .Eq, a, b => some (if a = b then 1 else 0)
  | .Neq, a, b => some (if a ≠ b then 1 else 0)
  | .Lt, a, b => some (if a < b then 1 else 0)
  | .Gt, a, b => some (if b < a then 1 else 0)
  | .Leq, a, b => some (if a ≤ b then 1 else 0)
  | .Geq, a, b => some (if b ≤ a then 1 else 0)
  | .Lor, a, b => some (if a ≠ 0 ∨ b ≠ 0 then 1 else 0)
  | .Shl, a, b => compute_shl_uint a b
  | .Shr, a, b => compute_shr_uint a b
  | .Band, a, b => some (a &&& b)
  | .MMul, _, _ => none

/-- Models graph.rs `Operation::eval_fr` on `Fr` field elements (represented
by their canonical values, always `< M` for realizable inputs).  Arkworks
comparisons on `Fr` compare canonical representatives.  `MMul` is
`unimplemented!`. -/
def Operation.eval_fr : Operation → Nat → Nat → Option Nat
  | .Add, a, b => some ((a + b) % M)
  | .Sub, a, b => some ((a + (M - b % M)) % M)
  | .Mul, a, b => some (a * b % M)
  | .Eq, a, b => some (if a = b then 1 else 0)
  | .Neq, a, b => some (if a ≠ b then 1 else 0)
  | .Lt, a, b => some (if a < b then 1 else 0)
  | .Gt, a, b => some (if b < a then 1 else 0)
  | .Leq, a, b => some (if a ≤ b then 1 else 0)
  | .Geq, a, b => some (if b ≤ a then 1 else 0)
  | .Lor, a, b => some (if a ≠ 0 ∨ b ≠ 0 then 1 else 0)
  | .Shl, a, b => compute_shl_Fr a b
  | .Shr, a, b => compute_shr_Fr a b
  | .Band, a, b => compute_bitand_Fr a b
  | .MMul, _, _ => none

/-- Evaluate one node given the input vector and the values of all earlier
nodes (graph.rs `evaluate`, loop body).  Out-of-range indexing is `none`. -/
def evalNode (inputs : List Nat) (values : List Nat) : Node → Option Nat
  | .Constant c => some (frNew c)
  | .MontConstant c => some (c % M)
  | .Input i =>
    match inputs[i]? with
    | some v => some (frNew v)
    | none => none
  | .Op op a b =>
    match values[a]?, values[b]? with
    | some va, some vb => op.eval_fr va vb
    | _, _ => none

/-- Forward pass of graph.rs `evaluate`: compute the value of every node in
order, each from the already-computed prefix. -/
def evalAux (inputs : List Nat) (acc : List Nat) : List Node → Option (List Nat)
  | [] => some acc
  | n :: rest =>
    match evalNode inputs acc n with
    | some v => evalAux inputs (acc ++ [v]) rest
    | none => none

/-- Value vector of the whole graph (graph.rs `evaluate`, first loop). -/
def evaluateValues (nodes : List Node) (inputs : List Nat) : Option (List Nat) :=
  evalAux inputs [] nodes

/-- Effectful map over a list, aborting on the first failure (the shape of
every indexed loop in graph.rs that can panic). -/
def optionMap {α β : Type} (f : α → Option β) : List α → Option (List β)
  | [] => some []
  | x :: rest =>
    match f x, optionMap f rest with
    | some y, some ys => some (y :: ys)
    | _, _ => none

/-- Models graph.rs `evaluate`: evaluate every node, then read back the
requested outputs as canonical 256-bit residues. -/
def evaluate (nodes : List Node) (inputs : List Nat) (outputs : List Nat) :
    Option (List Nat) :=
  match evaluateValues nodes inputs with
  | none => none
  | some vs => optionMap (fun o => vs[o]?) outputs

/-- Models graph.rs `assert_valid`: every `Op` node's operand indices must be
strictly smaller than its own index. -/
def assertValidAux : Nat → List Node → Bool
  | _, [] => true
  | i, .Op _ a b :: rest => decide (a < i) && decide (b < i) && assertValidAux (i + 1) rest
  | i, _ :: rest => assertValidAux (i + 1) rest

/-- Top-level backward-reference check (graph.rs `assert_valid`). -/
def assert_valid (nodes : List Node) : Bool := assertValidAux 0 nodes

/-- The comparison folding table of graph.rs `propagate` for an `Op` whose
two operand indices coincide: `Eq | Leq | Geq => Some(true)`,
`Neq | Lt | Gt => Some(false)`, anything else `None`. -/
def trivialEqFold : Operation → Option Bool
  | .Eq | .Leq | .Geq => some true
  | .Neq | .Lt | .Gt => some false
  | _ => none

/-- The step taken by graph.rs `propagate` at one `Op(op, a, b)` node, reading
the already-processed prefix `acc` (operands precede the node, so their final
values are visible): fold two `Constant` operands through `Operation.eval`,
fold trivially-equal comparisons, leave everything else unchanged.  `none`
models the panic of `op.eval`. -/
def propStep (acc : List Node) (op : Operation) (a b : Nat) : Option Node :=
  match acc[a]?, acc[b]? with
  | some (.Constant va), some (.Constant vb) => (op.eval va vb).map .Constant
  | _, _ =>
    if a = b then
      match trivialEqFold op with
      | some c => some (.Constant (if c then 1 else 0))
      | none => some (.Op op a b)
    else some (.Op op a b)

/-- In-order accumulation loop of graph.rs `propagate`. -/
def propagateAux (acc : List Node) : List Node → Option (List Node)
  | [] => some acc
  | .Op op a b :: rest =>
    match propStep acc op a b with
    | some n => propagateAux (acc ++ [n]) rest
    | none => none
  | n :: rest => propagateAux (acc ++ [n]) rest

/-- Models graph.rs `propagate` (constant propagation); it first runs
`assert_valid`. -/
def propagate (nodes : List Node) : Option (List Node) :=
  if assert_valid nodes then propagateAux [] nodes else none

/-- Marking phase of graph.rs `tree_shake`: set `used[i] = true` for every
output index `i`, panicking (`none`) on an out-of-range index. -/
def markOutputsAux (used : List Bool) : List Nat → Option (List Bool)
  | [] => some used
  | o :: rest =>
    if o < used.length then markOutputsAux (used.set o true) rest else none

/-- Reverse scan of graph.rs `tree_shake`: walk indices from high to low and
mark the operands of every used `Op` node.  The countdown argument is the
number of indices still to process. -/
def markScan (nodes : List Node) : List Bool → Nat → List Bool
  | used, 0 => used
  | used, i + 1 =>
    let used1 :=
      if used.getD i false then
        match nodes.getD i (.Input 0) with
        | .Op _ a b => (used.set a true).set b true
        | _ => used
      else used
    markScan nodes used1 i

/-- Retain step of graph.rs `tree_shake`: keep exactly the nodes whose mark
is set, preserving order. -/
def keepUsed (nodes : List Node) (used : List Bool) : List Node :=
  (nodes.zip used).filterMap (fun p => if p.2 then some p.1 else none)

/-- Renumbering table of graph.rs `tree_shake`: position `i` holds the new
index of node `i` when it is kept, `none` otherwise. -/
def renumberAux (idx : Nat) : List Bool → List (Option Nat)
  | [] => []
  | true :: rest => some idx :: renumberAux (idx + 1) rest
  | false :: rest => none :: renumberAux idx rest

/-- Rewrite one node's operand indices through the renumbering table
(`renumber[*a].unwrap()` in graph.rs); `none` models the unwrap panic. -/
def renumberNode (ren : List (Option Nat)) : Node → Option Node
  | .Op op a b =>
    match ren.getD a none, ren.getD b none with
    | some a1, some b1 => some (.Op op a1 b1)
    | _, _ => none
  | n => some n

/-- Models graph.rs `tree_shake` (mark-and-compact dead-code elimination):
validate, mark outputs, scan backwards, drop unused nodes, renumber the
surviving operand and output indices. -/
def tree_shake (nodes : List Node) (outputs : List Nat) :
    Option (List Node × List Nat) :=
  if assert_valid nodes then
    match markOutputsAux (List.replicate nodes.length false) outputs with
    | none => none
    | some used0 =>
      let used := markScan nodes used0 nodes.length
      let ren := renumberAux 0 used
      match optionMap (renumberNode ren) (keepUsed nodes used),
          optionMap (fun o => ren.getD o none) outputs with
      | some nodes1, some outputs1 => some (nodes1, outputs1)
      | _, _ => none
  else none

/-- Explicit model of the thread-local random generator: a stream of draws
(zero once the list is exhausted) and a cursor.  `rng.gen::<U256>() % M`
reads the next draw reduced mod `M`. -/
structure Rng where
  stream : List Nat
  k : Nat
deriving DecidableEq, Repr

/-- Draw the next random field element from the stream. -/
def Rng.next (r : Rng) : Nat × Rng :=
  (r.stream.getD r.k 0 % M, ⟨r.stream, r.k + 1⟩)

/-- Lookup in the per-call input cache of graph.rs `random_eval`. -/
def lookupInput : List (Nat × Nat) → Nat → Option Nat
  | [], _ => none
  | (j, v) :: rest, i => if i = j then some v else lookupInput rest i

/-- Lookup in the per-call PRF memo table of graph.rs `random_eval`. -/
def lookupPrf : List ((Operation × Nat × Nat) × Nat) → Operation × Nat × Nat → Option Nat
  | [], _ => none
  | (kk, v) :: rest, key => if key = kk then some v else lookupPrf rest key

/-- Operations evaluated algebraically by graph.rs `random_eval`. -/
def algebraicOp : Operation → Bool
  | .Add | .Sub | .Mul => true
  | _ => false

/-- Loop of graph.rs `random_eval`: constants evaluate to themselves,
`MontConstant` is `unimplemented!`, inputs draw one cached random value per
distinct index, algebraic ops evaluate exactly, and every other op is a
memoized random function of `(op, value a, value b)`. -/
def randomEvalAux (values : List Nat) (inputsMap : List (Nat × Nat))
    (prfs : List ((Operation × Nat × Nat) × Nat)) (rng : Rng) :
    List Node → Option (List Nat × Rng)
  | [] => some (values, rng)
  | .Constant c :: rest => randomEvalAux (values ++ [c]) inputsMap prfs rng rest
  | .MontConstant _ :: _ => none
  | .Input i :: rest =>
    match lookupInput inputsMap i with
    | some v => randomEvalAux (values ++ [v]) inputsMap prfs rng rest
    | none =>
      let (v, rng1) := rng.next
      randomEvalAux (values ++ [v]) ((i, v) :: inputsMap) prfs rng1 rest
  | .Op op a b :: rest =>
    match values[a]?, values[b]? with
    | some va, some vb =>
      if algebraicOp op then
        match op.eval va vb with
        | some v => randomEvalAux (values ++ [v]) inputsMap prfs rng rest
        | none => none
      else
        match lookupPrf prfs (op, va, vb) with
        | some v => randomEvalAux (values ++ [v]) inputsMap prfs rng rest
        | none =>
          let (v, rng1) := rng.next
          randomEvalAux (values ++ [v]) inputsMap (((op, va, vb), v) :: prfs) rng1 rest
    | _, _ => none

/-- Models graph.rs `random_eval`. -/
def random_eval (nodes : List Node) (rng : Rng) : Option (List Nat × Rng) :=
  randomEvalAux [] [] [] rng nodes

/-- Index of the first occurrence of `v` in `l` (the representative chosen by
graph.rs `value_numbering`: groups are built in ascending index order, so the
head of a group is the least index with that value). -/
def firstIdx (l : List Nat) (v : Nat) : Nat :=
  match l with
  | [] => 0
  | x :: rest => if x = v then 0 else firstIdx rest v + 1

/-- Models graph.rs `value_numbering`: one random evaluation, then rewrite
every operand and output index to the least index holding the same random
value. -/
def value_numbering (nodes : List Node) (outputs : List Nat) (rng : Rng) :
    Option (List Node × List Nat × Rng) :=
  if assert_valid nodes then
    match random_eval nodes rng with
    | none => none
    | some (values, rng1) =>
      let ren := values.map (fun v => firstIdx values v)
      match optionMap (fun n =>
          match n with
          | .Op op a b =>
            match ren[a]?, ren[b]? with
            | some a1, some b1 => some (.Op op a1 b1)
            | _, _ => none
          | n => some n) nodes,
          optionMap (fun o => ren[o]?) outputs with
      | some nodes1, some outputs1 => some (nodes1, outputs1, rng1)
      | _, _ => none
  else none

/-- Models graph.rs `constants` (probabilistic constant discovery): two
random evaluations; every non-`Constant` node on which they agree is promoted
to a `Constant` holding the first evaluation's value. -/
def constants (nodes : List Node) (rng : Rng) : Option (List Node × Rng) :=
  if assert_valid nodes then
    match random_eval nodes rng with
    | none => none
    | some (va, rng1) =>
      match random_eval nodes rng1 with
      | none => none
      | some (vb, rng2) =>
        some (((List.range nodes.length).map (fun i =>
          match nodes.getD i (.Input 0) with
          | .Constant c => .Constant c
          | n => if va.getD i 0 = vb.getD i 0 then .Constant (va.getD i 0) else n)),
          rng2)
  else none

/-- Models graph.rs `montgomery_form`: every `Constant(c)` becomes
`MontConstant(Fr::new(c))`; all other nodes are unchanged. -/
def montgomery_form (nodes : List Node) : List Node :=
  nodes.map (fun n =>
    match n with
    | .Constant c => .MontConstant (frNew c)
    | n => n)

/-- Models graph.rs `optimize`: the fixed six-pass schedule. -/
def optimize (nodes : List Node) (outputs : List Nat) (rng : Rng) :
    Option (List Node × List Nat) := do
  let (n1, o1) ← tree_shake nodes outputs
  let n2 ← propagate n1
  let (n3, o3, rng1) ← value_numbering n2 o1 rng
  let (n4, rng2) ← constants n3 rng1
  let (n5, o5) ← tree_shake n4 o3
  let _ := rng2
  some (montgomery_form n5, o5)

/-- Number of `true` entries in a mark vector. -/
def countTrue : List Bool → Nat
  | [] => 0
  | true :: rest => countTrue rest + 1
  | false :: rest => countTrue rest

/-- Indices of the `true` entries of a mark vector, in increasing order,
offset by `idx` (the original index of the head). -/
def survAux (idx : Nat) : List Bool → List Nat
  | [] => []
  | true :: rest => idx :: survAux (idx + 1) rest
  | false :: rest => survAux (idx + 1) rest

/-- Indices of the surviving (marked) nodes, in increasing order. -/
def survivors (used : List Bool) : List Nat := survAux 0 used

/-- New index assigned by `tree_shake` to old index `i`: how many marked
indices precede it. -/
def rank (used : List Bool) (i : Nat) : Nat := countTrue (used.take i)

/-- Every `Constant` node carries a canonical residue (strictly below `M`). -/
def constantsCanonical (nodes : List Node) : Bool :=
  nodes.all (fun n =>
    match n with
    | .Constant c => decide (c < M)
    | _ => true)

/-- The per-node rewrite claimed for `propagate`, read against the
environment `env` of final node values: a binary operation on two `Constant`
operands folds to the `Operation.eval` result, a comparison with equal
operand indices folds to its truth value, and every other node is left
unchanged. -/
def claimFold (env : List Node) (n : Node) : Node :=
  match n with
  | .Op op a b =>
    match env.getD a (.Input 0), env.getD b (.Input 0) with
    | .Constant va, .Constant vb => .Constant ((op.eval va vb).getD 0)
    | _, _ =>
      if a = b then
        match trivialEqFold op with
        | some c => .Constant (if c then 1 else 0)
        | none => n
      else n
  | n => n

/-- Induction-friendly statement of what `propagateAux acc ns = some res`
guarantees: the prefix `acc` is kept verbatim, and each processed node is
either the result of `propStep` on the corresponding prefix (for `Op` nodes)
or copied unchanged (for all other nodes). -/
def PropagateSpec (ns acc res : List Node) : Prop :=
  res.length = acc.length + ns.length ∧
  res.take acc.length = acc ∧
  ∀ k, k < ns.length →
    (∀ op a b, ns.getD k (.Input 0) = .Op op a b →
      propStep (res.take (acc.length + k)) op a b =
        some (res.getD (acc.length + k) (.Input 0))) ∧
    ((∃ op a b, ns.getD k (.Input 0) = .Op op a b) ∨
      ((∀ op a b, ns.getD k (.Input 0) ≠ .Op op a b) ∧
        res.getD (acc.length + k) (.Input 0) = ns.getD k (.Input 0)))

theorem length_toLeBytes64 (x : Nat) : (toLeBytes64 x).length = 64 := by
  simp [toLeBytes64]

theorem u8_to_u64_array_toLeBytes64 (x : Nat) :
    u8_to_u64_array (toLeBytes64 x) = none := by
  simp [u8_to_u64_array, length_toLeBytes64]

theorem compute_shl_Fr_none (a b : Nat) : compute_shl_Fr a b = none := by
  unfold compute_shl_Fr
  cases compute_shl_uint a b with
  | none => rfl
  | some r => simp [u8_to_u64_array_toLeBytes64]

theorem compute_shr_Fr_none (a b : Nat) : compute_shr_Fr a b = none := by
  unfold compute_shr_Fr
  cases compute_shr_uint a b with
  | none => rfl
  | some r => simp [u8_to_u64_array_toLeBytes64]

theorem compute_bitand_Fr_none (a b : Nat) : compute_bitand_Fr a b = none := by
  unfold compute_bitand_Fr
  simp [u8_to_u64_array_toLeBytes64]

/-- C2: the claim is that `eval_fr` agrees with `eval` on every operation,
including `Shl`, `Shr` and `Band`.  The code cannot: its byte-conversion
helpers feed a 64-byte array into `u8_to_u64_array`, whose own assertion
demands exactly 32 bytes, so the Montgomery evaluator panics on every
`Shl`/`Shr`/`Band` call while the raw evaluator returns a value (for example
`eval Shl 1 1 = 2`). -/
theorem eval_fr_bit_ops_diverge :
    (∀ a b : Nat, Operation.eval_fr .Shl a b = none ∧
      Operation.eval_fr .Shr a b = none ∧ Operation.eval_fr .Band a b = none) ∧
    Operation.eval .Shl 1 1 = some 2 ∧ Operation.eval .Band 1 1 = some 1 := by
  refine ⟨fun a b => ⟨?_, ?_, ?_⟩, by decide, by decide⟩
  · exact compute_shl_Fr_none a b
  · exact compute_shr_Fr_none a b
  · exact compute_bitand_Fr_none a b

/-- C8: `MMul` hits the `unimplemented!` arm of both evaluators for every
pair of operands.  The other half of the claim — that every other operation
returns a value on both evaluators — fails on the code: `eval_fr` panics on
`Band` (and `Shl`, `Shr`) for all operands, e.g. at `(Band, 1, 1)`. -/
theorem mmul_fail_fast :
    (∀ a b : Nat, Operation.eval .MMul a b = none ∧
      Operation.eval_fr .MMul a b = none) ∧
    Operation.eval_fr .Band 1 1 = none := by
  exact ⟨fun a b => ⟨rfl, rfl⟩, compute_bitand_Fr_none 1 1⟩

/-- C7: both shift evaluators take the shift amount from the low 64 bits of
the shift operand and reject amounts of 256 or more: the raw helpers fail
their range assertion, and the Montgomery helpers (which call the raw ones
first) fail it too. -/
theorem shift_amount_semantics :
    (∀ a b : Nat, 256 ≤ b →
      Operation.eval .Shl a b = none ∧ Operation.eval .Shr a b = none ∧
      Operation.eval_fr .Shl a b = none ∧ Operation.eval_fr .Shr a b = none) ∧
    (∀ a b : Nat, b < 256 →
      Operation.eval .Shl a b = some ((a <<< (b % 2 ^ 64)) % 2 ^ 256) ∧
      Operation.eval .Shr a b = some (a >>> (b % 2 ^ 64))) := by
  constructor
  · intro a b hb
    have hnot : ¬b < 256 := Nat.not_lt.mpr hb
    refine ⟨?_, ?_, compute_shl_Fr_none a b, compute_shr_Fr_none a b⟩
    · simp [Operation.eval, compute_shl_uint, hnot]
    · simp [Operation.eval, compute_shr_uint, hnot]
  · intro a b hb
    constructor
    · simp [Operation.eval, compute_shl_uint, hb]
    · simp [Operation.eval, compute_shr_uint, hb]

/-- Witness for C7 at concrete inputs: shift amount 300 is rejected by all
four shift evaluators, and in-range shifts compute the expected values. -/
theorem shift_amount_semantics_witness :
    ((256 ≤ 300) ∧
      (Operation.eval .Shl 1 300 = none ∧ Operation.eval .Shr 1 300 = none ∧
        Operation.eval_fr .Shl 1 300 = none ∧ Operation.eval_fr .Shr 1 300 = none)) ∧
    ((3 < 256) ∧
      (Operation.eval .Shl 5 3 = some ((5 <<< (3 % 2 ^ 64)) % 2 ^ 256) ∧
        Operation.eval .Shr 5 3 = some (5 >>> (3 % 2 ^ 64)))) := by
  exact ⟨⟨by decide, shift_amount_semantics.1 1 300 (by decide)⟩,
    ⟨by decide, shift_amount_semantics.2 5 3 (by decide)⟩⟩

/-- C3: the end-to-end example.  The five-node graph evaluates to `[35]` on
inputs `[3, 4]`; running the full pipeline (with a stream of random draws
1, 2 for value numbering and 1, 2 / 3, 4 for the two constant-discovery
evaluations) rewrites `Constant 5` to `MontConstant 5` and nothing else, and
the optimized graph still evaluates to `[35]`. -/
theorem end_to_end_example :
    evaluate [Node.Input 0, Node.Input 1, Node.Constant 5,
      Node.Op .Add 0 1, Node.Op .Mul 3 2] [3, 4] [4] = some [35] ∧
    optimize [Node.Input 0, Node.Input 1, Node.Constant 5,
      Node.Op .Add 0 1, Node.Op .Mul 3 2] [4] ⟨[1, 2, 1, 2, 3, 4], 0⟩ =
      some ([Node.Input 0, Node.Input 1, Node.MontConstant 5,
        Node.Op .Add 0 1, Node.Op .Mul 3 2], [4]) ∧
    evaluate [Node.Input 0, Node.Input 1, Node.MontConstant 5,
      Node.Op .Add 0 1, Node.Op .Mul 3 2] [3, 4] [4] = some [35] := by
  refine ⟨by decide, by decide, by decide⟩

/-- C1 counterexample: the claim quantifies over every sequence of random
draws, but when the two `constants`-pass evaluations happen to draw the same
value for `Input 0` (here: the all-zero stream), the input node is promoted
to a constant and the computed function changes: the one-node graph
`[Input 0]` maps input `[5]` to `[5]` before optimization and to `[0]`
after. -/
theorem optimize_draw_dependent_cex :
    evaluate [Node.Input 0] [5] [0] = some [5] ∧
    optimize [Node.Input 0] [0] ⟨[], 0⟩ = some ([Node.MontConstant 0], [0]) ∧
    evaluate [Node.MontConstant 0] [5] [0] = some [0] ∧
    evaluate [Node.MontConstant 0] [5] [0] ≠ evaluate [Node.Input 0] [5] [0] := by
  refine ⟨by decide, by decide, by decide, by decide⟩

theorem markOutputsAux_oob (outputs : List Nat) (o : Nat) :
    ∀ used : List Bool, o ∈ outputs → used.length ≤ o →
    markOutputsAux used outputs = none := by
  induction outputs with
  | nil => intro used h _; cases h
  | cons x rest ih =>
    intro used ho hlen
    unfold markOutputsAux
    by_cases hx : x < used.length
    · rw [if_pos hx]
      rcases List.mem_cons.mp ho with h | h
      · subst h; omega
      · exact ih _ h (by simpa using hlen)
    · rw [if_neg hx]

/-- C10: tree_shake (and hence optimize, whose first pass it is) fails fast
when some output index is out of range: the initial marking phase aborts
before any node is modified, removed or renumbered, so the whole call
produces no result. -/
theorem tree_shake_oob_output_fails (nodes : List Node) (outputs : List Nat)
    (o : Nat) (rng : Rng) (ho : o ∈ outputs) (hlen : nodes.length ≤ o) :
    tree_shake nodes outputs = none ∧ optimize nodes outputs rng = none := by
  have hts : tree_shake nodes outputs = none := by
    unfold tree_shake
    by_cases hv : assert_valid nodes
    · rw [if_pos hv, markOutputsAux_oob _ o _ ho (by simpa using hlen)]
    · rw [if_neg hv]
  refine ⟨hts, ?_⟩
  unfold optimize
  rw [hts]
  rfl

/-- Witness for C10 at a concrete graph: output index 3 on a one-node graph. -/
theorem tree_shake_oob_output_fails_witness :
    (3 ∈ [3] ∧ ([Node.Input 0] : List Node).length ≤ 3) ∧
    (tree_shake [Node.Input 0] [3] = none ∧ optimize [Node.Input 0] [3] ⟨[], 0⟩ = none) :=
  ⟨⟨by decide, by decide⟩,
    tree_shake_oob_output_fails [Node.Input 0] [3] 3 ⟨[], 0⟩ (by decide) (by decide)⟩

theorem eval_fr_lt (op : Operation) (a b v : Nat) (h : op.eval_fr a b = some v) :
    v < M := by
  have h0 : (0 : Nat) < M := by decide
  have h1 : (1 : Nat) < M := by decide
  cases op with
  | Add => simp [Operation.eval_fr] at h; exact h ▸ Nat.mod_lt _ h0
  | Sub => simp [Operation.eval_fr] at h; exact h ▸ Nat.mod_lt _ h0
  | Mul => simp [Operation.eval_fr] at h; exact h ▸ Nat.mod_lt _ h0
  | Eq => simp [Operation.eval_fr] at h; split at h <;> (cases h; assumption)
  | Neq => simp [Operation.eval_fr] at h; split at h <;> (cases h; assumption)
  | Lt => simp [Operation.eval_fr] at h; split at h <;> (cases h; assumption)
  | Gt => simp [Operation.eval_fr] at h; split at h <;> (cases h; assumption)
  | Leq => simp [Operation.eval_fr] at h; split at h <;> (cases h; assumption)
  | Geq => simp [Operation.eval_fr] at h; split at h <;> (cases h; assumption)
  | Lor => simp [Operation.eval_fr] at h; split at h <;> (cases h; assumption)
  | Shl =>
    have : Operation.eval_fr .Shl a b = none := compute_shl_Fr_none a b
    rw [this] at h; cases h
  | Shr =>
    have : Operation.eval_fr .Shr a b = none := compute_shr_Fr_none a b
    rw [this] at h; cases h
  | Band =>
    have : Operation.eval_fr .Band a b = none := compute_bitand_Fr_none a b
    rw [this] at h; cases h
  | MMul => simp [Operation.eval_fr] at h

theorem evalNode_lt (inputs values : List Nat) (n : Node) (v : Nat)
    (h : evalNode inputs values n = some v) : v < M := by
  have h0 : (0 : Nat) < M := by decide
  cases n with
  | Constant c => simp [evalNode, frNew] at h; exact h ▸ Nat.mod_lt _ h0
  | MontConstant c => simp [evalNode] at h; exact h ▸ Nat.mod_lt _ h0
  | Input i =>
    cases hi : inputs[i]? with
    | none => simp [evalNode, hi] at h
    | some w => simp [evalNode, hi, frNew] at h; exact h ▸ Nat.mod_lt _ h0
  | Op op a b =>
    cases ha : values[a]? with
    | none => simp [evalNode, ha] at h
    | some va =>
      cases hb : values[b]? with
      | none => simp [evalNode, ha, hb] at h
      | some vb =>
        simp [evalNode, ha, hb] at h
        exact eval_fr_lt op va vb v h

theorem evalAux_all_lt (inputs : List Nat) :
    ∀ (ns : List Node) (acc vs : List Nat), evalAux inputs acc ns = some vs →
    (∀ v ∈ acc, v < M) → ∀ v ∈ vs, v < M := by
  intro ns
  induction ns with
  | nil =>
    intro acc vs h hacc
    simp [evalAux] at h
    subst h; exact hacc
  | cons n rest ih =>
    intro acc vs h hacc
    cases he : evalNode inputs acc n with
    | none => simp [evalAux, he] at h
    | some v =>
      simp only [evalAux, he] at h
      refine ih _ _ h ?_
      intro w hw
      rcases List.mem_append.mp hw with h1 | h1
      · exact hacc w h1
      · simp at h1; subst h1; exact evalNode_lt _ _ _ _ he

theorem optionMap_getElem_mem : ∀ (outputs vs out : List Nat),
    optionMap (fun o => vs[o]?) outputs = some out → ∀ v ∈ out, v ∈ vs := by
  intro outputs
  induction outputs with
  | nil =>
    intro vs out h v hv
    simp [optionMap] at h
    subst h; cases hv
  | cons o rest ih =>
    intro vs out h v hv
    cases ho : vs[o]? with
    | none => simp [optionMap, ho] at h
    | some w =>
      cases hr : optionMap (fun o => vs[o]?) rest with
      | none => simp [optionMap, ho, hr] at h
      | some ws =>
        simp [optionMap, ho, hr] at h
        subst h
        rcases List.mem_cons.mp hv with h1 | h1
        · subst h1; exact List.getElem?_mem ho
        · exact ih _ _ hr v h1

/-- C9: every residue returned by `evaluate` is canonically reduced, i.e.
strictly below the modulus `M`, whatever the graph and inputs (including
constants or inputs at or above `M`). -/
theorem evaluate_outputs_canonical (nodes : List Node) (inputs outputs out : List Nat)
    (h : evaluate nodes inputs outputs = some out) : ∀ v ∈ out, v < M := by
  unfold evaluate at h
  cases hv : evaluateValues nodes inputs with
  | none => rw [hv] at h; cases h
  | some vs =>
    rw [hv] at h
    intro v hvv
    have hmem : v ∈ vs := optionMap_getElem_mem outputs vs out h v hvv
    have : evalAux inputs [] nodes = some vs := hv
    exact evalAux_all_lt inputs nodes [] vs this (by intro w hw; cases hw) v hmem

/-- Witness for C9: a graph whose constant is not reduced still produces a
canonical output. -/
theorem evaluate_outputs_canonical_witness :
    evaluate [Node.Constant (M + 7)] [] [0] = some [7] ∧ ∀ v ∈ [(7 : Nat)], v < M :=
  ⟨by decide, evaluate_outputs_canonical [Node.Constant (M + 7)] [] [0] [7] (by decide)⟩

theorem getD_take {α : Type} (l : List α) (d : α) (i n : Nat) (h : i < n) :
    (l.take n).getD i d = l.getD i d := by
  rw [List.getD_eq_getElem?_getD, List.getD_eq_getElem?_getD,
    List.getElem?_take_of_lt h]

theorem getD_append_left {α : Type} (l1 l2 : List α) (d : α) (i : Nat)
    (h : i < l1.length) : (l1 ++ l2).getD i d = l1.getD i d := by
  rw [List.getD_eq_getElem?_getD, List.getD_eq_getElem?_getD,
    List.getElem?_append, if_pos h]

theorem getD_of_take_eq {α : Type} (l pre : List α) (x : α) (d : α)
    (h : l.take (pre.length + 1) = pre ++ [x]) : l.getD pre.length d = x := by
  have h1 : (l.take (pre.length + 1)).getD pre.length d = x := by
    rw [h]
    rw [List.getD_eq_getElem?_getD, List.getElem?_append_right (Nat.le_refl _)]
    simp
  rw [getD_take l d pre.length (pre.length + 1) (Nat.lt_succ_self _)] at h1
  exact h1

theorem assertValidAux_iff : ∀ (ns : List Node) (j : Nat),
    assertValidAux j ns = true ↔
      ∀ k, k < ns.length → ∀ op a b, ns.getD k (.Input 0) = .Op op a b →
        a < j + k ∧ b < j + k := by
  intro ns
  induction ns with
  | nil => intro j; simp [assertValidAux]
  | cons n rest ih =>
    intro j
    have step : assertValidAux j (n :: rest) = true ↔
        ((∀ op a b, n = .Op op a b → a < j ∧ b < j) ∧
          assertValidAux (j + 1) rest = true) := by
      cases n with
      | Op op a b => simp [assertValidAux, and_assoc]
      | Input i => simp [assertValidAux]
      | Constant c => simp [assertValidAux]
      | MontConstant c => simp [assertValidAux]
    rw [step, ih (j + 1)]
    constructor
    · rintro ⟨hn, hrest⟩ k hk op a b hget
      cases k with
      | zero => simpa using hn op a b (by simpa using hget)
      | succ k =>
        have := hrest k (by simpa using Nat.lt_of_succ_lt_succ hk) op a b
          (by simpa using hget)
        omega
    · intro hall
      constructor
      · intro op a b hn1
        have := hall 0 (by simp) op a b (by simpa using congrArg id hn1)
        omega
      · intro k hk op a b hget
        have := hall (k + 1) (by simpa using Nat.succ_lt_succ hk) op a b
          (by simpa using hget)
        omega

theorem assert_valid_iff (nodes : List Node) :
    assert_valid nodes = true ↔
      ∀ k, k < nodes.length → ∀ op a b, nodes.getD k (.Input 0) = .Op op a b →
        a < k ∧ b < k := by
  have := assertValidAux_iff nodes 0
  simpa [assert_valid] using this

theorem propStep_env_take (env : List Node) (i : Nat) (op : Operation) (a b : Nat)
    (ha : a < i) (hb : b < i) :
    propStep (env.take i) op a b = propStep env op a b := by
  unfold propStep
  rw [List.getElem?_take_of_lt ha, List.getElem?_take_of_lt hb]

theorem propStep_nonconst_arm (op : Operation) (a b : Nat) (n : Node)
    (h : (if a = b then
        match trivialEqFold op with
        | some c => some (Node.Constant (if c then 1 else 0))
        | none => some (Node.Op op a b)
      else some (Node.Op op a b)) = some n) :
    n = (if a = b then
        match trivialEqFold op with
        | some c => Node.Constant (if c then 1 else 0)
        | none => Node.Op op a b
      else Node.Op op a b) := by
  by_cases hab : a = b
  · rw [if_pos hab] at h
    rw [if_pos hab]
    cases htf : trivialEqFold op with
    | none => rw [htf] at h; cases h; rfl
    | some c => rw [htf] at h; cases h; rfl
  · rw [if_neg hab] at h
    rw [if_neg hab]
    cases h; rfl

theorem propStep_claimFold (env : List Node) (op : Operation) (a b : Nat)
    (n : Node) (h : propStep env op a b = some n) :
    n = claimFold env (.Op op a b) := by
  unfold propStep at h
  simp only [claimFold]
  rw [List.getD_eq_getElem?_getD env a, List.getD_eq_getElem?_getD env b]
  cases ha : env[a]? with
  | none =>
    rw [ha] at h
    try simp only [Option.getD_none]
    cases hb : env[b]? with
    | none =>
      rw [hb] at h
      exact propStep_nonconst_arm op a b n h
    | some nb =>
      rw [hb] at h
      try simp only [Option.getD_some]
      cases nb <;> exact propStep_nonconst_arm op a b n h
  | some na =>
    rw [ha] at h
    try simp only [Option.getD_some]
    cases hb : env[b]? with
    | none =>
      rw [hb] at h
      try simp only [Option.getD_none]
      cases na <;> exact propStep_nonconst_arm op a b n h
    | some nb =>
      rw [hb] at h
      try simp only [Option.getD_some]
      cases na with
      | Constant va =>
        cases nb with
        | Constant vb =>
          have h2 : Option.map Node.Constant (op.eval va vb) = some n := h
          show n = Node.Constant ((op.eval va vb).getD 0)
          cases hv : op.eval va vb with
          | none => rw [hv] at h2; cases h2
          | some v => rw [hv] at h2; cases h2; simp
        | Input i => exact propStep_nonconst_arm op a b n h
        | MontConstant c => exact propStep_nonconst_arm op a b n h
        | Op op2 a2 b2 => exact propStep_nonconst_arm op a b n h
      | Input i => cases nb <;> exact propStep_nonconst_arm op a b n h
      | MontConstant c => cases nb <;> exact propStep_nonconst_arm op a b n h
      | Op op2 a2 b2 => cases nb <;> exact propStep_nonconst_arm op a b n h

theorem propagateSpec_shift (rest acc res : List Node) (n n1 : Node)
    (hrec : PropagateSpec rest (acc ++ [n1]) res)
    (hk0op : ∀ op a b, n = .Op op a b → propStep acc op a b = some n1)
    (hk0keep : (∃ op a b, n = .Op op a b) ∨
      ((∀ op a b, n ≠ .Op op a b) ∧ n1 = n)) :
    PropagateSpec (n :: rest) acc res := by
  obtain ⟨hlen, htake1, hspec⟩ := hrec
  have hA : (acc ++ [n1]).length = acc.length + 1 := by simp
  rw [hA] at hlen htake1
  have htake0 : res.take acc.length = acc := by
    have h1 : res.take acc.length = (res.take (acc.length + 1)).take acc.length := by
      rw [List.take_take]
      congr 1
      omega
    rw [h1, htake1]
    exact List.take_left acc [n1]
  have hget0 : res.getD acc.length (.Input 0) = n1 :=
    getD_of_take_eq res acc n1 _ htake1
  refine ⟨by simp; omega, htake0, ?_⟩
  intro k hk
  cases k with
  | zero =>
    constructor
    · intro op a b heq
      simp only [List.getD_cons_zero] at heq
      rw [Nat.add_zero, htake0, hget0]
      exact hk0op op a b heq
    · simp only [List.getD_cons_zero, Nat.add_zero]
      rcases hk0keep with hl | ⟨hno, hr⟩
      · left; exact hl
      · right; exact ⟨hno, by rw [hget0, hr]⟩
  | succ k =>
    have hk1 : k < rest.length := by simp at hk; omega
    obtain ⟨hOp, hRest⟩ := hspec k hk1
    simp only [hA] at hOp hRest
    simp only [show acc.length + 1 + k = acc.length + (k + 1) from by omega] at hOp hRest
    constructor
    · intro op a b heq
      simp only [List.getD_cons_succ] at heq
      exact hOp op a b heq
    · simp only [List.getD_cons_succ]
      exact hRest

theorem propagateAux_spec : ∀ (ns acc res : List Node),
    propagateAux acc ns = some res → PropagateSpec ns acc res := by
  intro ns
  induction ns with
  | nil =>
    intro acc res h
    simp only [propagateAux] at h
    cases h
    exact ⟨by simp, by simp, by intro k hk; simp at hk⟩
  | cons n rest ih =>
    intro acc res h
    cases n with
    | Op op a b =>
      cases hs : propStep acc op a b with
      | none => simp only [propagateAux, hs] at h; cases h
      | some n1 =>
        simp only [propagateAux, hs] at h
        exact propagateSpec_shift rest acc res _ n1 (ih _ _ h)
          (fun op1 a1 b1 heq => by cases heq; exact hs)
          (Or.inl ⟨op, a, b, rfl⟩)
    | Input i =>
      simp only [propagateAux] at h
      exact propagateSpec_shift rest acc res _ _ (ih _ _ h)
        (fun op1 a1 b1 heq => by cases heq)
        (Or.inr ⟨(fun op1 a1 b1 heq => by cases heq), rfl⟩)
    | Constant c =>
      simp only [propagateAux] at h
      exact propagateSpec_shift rest acc res _ _ (ih _ _ h)
        (fun op1 a1 b1 heq => by cases heq)
        (Or.inr ⟨(fun op1 a1 b1 heq => by cases heq), rfl⟩)
    | MontConstant c =>
      simp only [propagateAux] at h
      exact propagateSpec_shift rest acc res _ _ (ih _ _ h)
        (fun op1 a1 b1 heq => by cases heq)
        (Or.inr ⟨(fun op1 a1 b1 heq => by cases heq), rfl⟩)

/-- C4: after `propagate`, the graph has the same length (no removal, no
renumbering) and each position holds exactly the claimed fold of the original
node: an `Op` whose two operands are `Constant` (in the pass's running
environment, which is the final node list since operands precede their users)
becomes `Constant (op.eval va vb)`; an `Op(op, a, a)` becomes `Constant 1`
for `Eq`/`Leq`/`Geq` and `Constant 0` for `Neq`/`Lt`/`Gt`; every other node
is unchanged. -/
theorem propagate_spec (nodes result : List Node) (h : propagate nodes = some result) :
    result.length = nodes.length ∧
    ∀ i, i < nodes.length →
      result.getD i (.Input 0) = claimFold result (nodes.getD i (.Input 0)) := by
  unfold propagate at h
  by_cases hv : assert_valid nodes
  case neg => rw [if_neg hv] at h; cases h
  rw [if_pos hv] at h
  obtain ⟨hlen, htake, hspec⟩ := propagateAux_spec nodes [] result h
  simp only [List.length_nil, Nat.zero_add] at hlen hspec
  refine ⟨hlen, ?_⟩
  intro i hi
  obtain ⟨hOp, hKeep⟩ := hspec i hi
  rcases hKeep with ⟨op, a, b, heq⟩ | ⟨hno, hSame⟩
  · have hstep := hOp op a b heq
    obtain ⟨ha, hb⟩ := (assert_valid_iff nodes).mp hv i hi op a b heq
    have hlt : i ≤ result.length := by omega
    rw [propStep_env_take result i op a b ha hb] at hstep
    rw [heq]
    exact propStep_claimFold result op a b _ hstep
  · rw [hSame]
    cases hnd : nodes.getD i (.Input 0) with
    | Op op a b => exact absurd hnd (hno op a b)
    | Input j => rfl
    | Constant c => rfl
    | MontConstant c => rfl

/-- Witness for C4 on a concrete graph exercising constant folding, the
equal-operand comparison folds, and the unchanged cases. -/
theorem propagate_spec_witness :
    propagate [Node.Constant 2, Node.Constant 3, Node.Op .Add 0 1,
        Node.Op .Lt 2 2, Node.Input 0, Node.Op .Mul 4 4, Node.Op .Geq 4 4] =
      some [Node.Constant 2, Node.Constant 3, Node.Constant 5,
        Node.Constant 0, Node.Input 0, Node.Op .Mul 4 4, Node.Constant 1] ∧
    ([Node.Constant 2, Node.Constant 3, Node.Constant 5, Node.Constant 0,
        Node.Input 0, Node.Op .Mul 4 4, Node.Constant 1] : List Node).length =
      ([Node.Constant 2, Node.Constant 3, Node.Op .Add 0 1, Node.Op .Lt 2 2,
        Node.Input 0, Node.Op .Mul 4 4, Node.Op .Geq 4 4] : List Node).length ∧
    ∀ i, i < ([Node.Constant 2, Node.Constant 3, Node.Op .Add 0 1,
        Node.Op .Lt 2 2, Node.Input 0, Node.Op .Mul 4 4,
        Node.Op .Geq 4 4] : List Node).length →
      ([Node.Constant 2, Node.Constant 3, Node.Constant 5, Node.Constant 0,
          Node.Input 0, Node.Op .Mul 4 4, Node.Constant 1] : List Node).getD i
          (.Input 0) =
        claimFold [Node.Constant 2, Node.Constant 3, Node.Constant 5,
          Node.Constant 0, Node.Input 0, Node.Op .Mul 4 4, Node.Constant 1]
          (([Node.Constant 2, Node.Constant 3, Node.Op .Add 0 1,
            Node.Op .Lt 2 2, Node.Input 0, Node.Op .Mul 4 4,
            Node.Op .Geq 4 4] : List Node).getD i (.Input 0)) :=
  ⟨by decide,
    (propagate_spec _ _ (by decide)).1,
    (propagate_spec _ _ (by decide)).2⟩

theorem getD_set_eq (l : List Bool) (i : Nat) (x : Bool) (h : i < l.length) :
    (l.set i x).getD i false = x := by
  rw [List.getD_eq_getElem?_getD, List.getElem?_set_eq h]
  rfl

theorem getD_set_ne (l : List Bool) (i j : Nat) (x : Bool) (h : j ≠ i) :
    (l.set i x).getD j false = l.getD j false := by
  rw [List.getD_eq_getElem?_getD, List.getElem?_set_ne (Ne.symm h),
    ← List.getD_eq_getElem?_getD]

theorem getD_set_true_mono (l : List Bool) (a j : Nat)
    (h : l.getD j false = true) : (l.set a true).getD j false = true := by
  by_cases hja : j = a
  · subst hja
    by_cases hl : j < l.length
    · rw [getD_set_eq l j true hl]
    · rw [List.set_eq_of_length_le (Nat.le_of_not_lt hl)]
      exact h
  · rw [getD_set_ne l a j true hja]
    exact h

theorem getD_true_lt_length (l : List Bool) (i : Nat)
    (h : l.getD i false = true) : i < l.length := by
  by_contra hc
  rw [List.getD_eq_getElem?_getD, List.getElem?_eq_none (Nat.le_of_not_lt hc)] at h
  cases h

theorem countTrue_append (l1 l2 : List Bool) :
    countTrue (l1 ++ l2) = countTrue l1 + countTrue l2 := by
  induction l1 with
  | nil => simp [countTrue]
  | cons b r ih =>
    cases b <;> simp [countTrue, ih] <;> omega

theorem countTrue_take_succ (l : List Bool) (a : Nat) :
    countTrue (l.take (a + 1)) =
      countTrue (l.take a) + (if l.getD a false then 1 else 0) := by
  rw [List.take_succ, countTrue_append]
  congr 1
  rw [List.getD_eq_getElem?_getD]
  cases h : l[a]? with
  | none => simp [countTrue]
  | some b => cases b <;> simp [countTrue]

theorem countTrue_take_le (l : List Bool) : ∀ i : Nat, countTrue (l.take i) ≤ countTrue l := by
  intro i
  have h1 : countTrue l = countTrue (l.take i) + countTrue (l.drop i) := by
    rw [← countTrue_append, List.take_append_drop]
  omega

theorem rank_lt_rank (used : List Bool) (a i : Nat) (ha : a < i)
    (hm : used.getD a false = true) : rank used a < rank used i := by
  unfold rank
  have h1 : countTrue (used.take (a + 1)) = countTrue (used.take a) + 1 := by
    rw [countTrue_take_succ, hm]
    simp
  have h2 : countTrue (used.take (a + 1)) ≤ countTrue (used.take i) := by
    have : used.take (a + 1) = (used.take i).take (a + 1) := by
      rw [List.take_take]
      congr 1
      omega
    rw [this]
    exact countTrue_take_le (used.take i) (a + 1)
  omega

theorem rank_lt_countTrue (used : List Bool) (i : Nat)
    (hm : used.getD i false = true) : rank used i < countTrue used := by
  unfold rank
  have h1 : countTrue (used.take (i + 1)) = countTrue (used.take i) + 1 := by
    rw [countTrue_take_succ, hm]
    simp
  have h2 := countTrue_take_le used (i + 1)
  omega

theorem optionMap_length {α β : Type} (f : α → Option β) :
    ∀ (l : List α) (l1 : List β), optionMap f l = some l1 → l1.length = l.length := by
  intro l
  induction l with
  | nil => intro l1 h; simp [optionMap] at h; subst h; rfl
  | cons x rest ih =>
    intro l1 h
    cases hx : f x with
    | none => simp [optionMap, hx] at h
    | some y =>
      cases hr : optionMap f rest with
      | none => simp [optionMap, hx, hr] at h
      | some ys =>
        simp [optionMap, hx, hr] at h
        subst h
        simp [ih ys hr]

theorem optionMap_getD {α β : Type} (f : α → Option β) (d : α) (e : β) :
    ∀ (l : List α) (l1 : List β), optionMap f l = some l1 →
    ∀ k, k < l.length → f (l.getD k d) = some (l1.getD k e) := by
  intro l
  induction l with
  | nil => intro l1 h k hk; simp at hk
  | cons x rest ih =>
    intro l1 h k hk
    cases hx : f x with
    | none => simp [optionMap, hx] at h
    | some y =>
      cases hr : optionMap f rest with
      | none => simp [optionMap, hx, hr] at h
      | some ys =>
        simp [optionMap, hx, hr] at h
        subst h
        cases k with
        | zero => simpa using hx
        | succ k =>
          simp only [List.getD_cons_succ]
          exact ih ys hr k (by simp at hk; omega)

theorem optionMap_id_of_mem {α : Type} (f : α → Option α) :
    ∀ (l : List α), (∀ x ∈ l, f x = some x) → optionMap f l = some l := by
  intro l
  induction l with
  | nil => intro h; rfl
  | cons x rest ih =>
    intro h
    have hx : f x = some x := h x (List.mem_cons_self x rest)
    have hr : optionMap f rest = some rest := ih (fun y hy => h y (List.mem_cons_of_mem x hy))
    simp [optionMap, hx, hr]

theorem optionMap_some_of_all {α β : Type} (f : α → Option β) :
    ∀ (l : List α), (∀ x ∈ l, ∃ y, f x = some y) →
    ∃ l1, optionMap f l = some l1 := by
  intro l
  induction l with
  | nil => intro h; exact ⟨[], rfl⟩
  | cons x rest ih =>
    intro h
    obtain ⟨y, hy⟩ := h x (List.mem_cons_self x rest)
    obtain ⟨ys, hys⟩ := ih (fun z hz => h z (List.mem_cons_of_mem x hz))
    exact ⟨y :: ys, by simp [optionMap, hy, hys]⟩

theorem optionMap_mem {α β : Type} (f : α → Option β) :
    ∀ (l : List α) (l1 : List β), optionMap f l = some l1 →
    ∀ y ∈ l1, ∃ x ∈ l, f x = some y := by
  intro l
  induction l with
  | nil =>
    intro l1 h y hy
    simp [optionMap] at h
    subst h
    cases hy
  | cons x rest ih =>
    intro l1 h y hy
    cases hx : f x with
    | none => simp [optionMap, hx] at h
    | some z =>
      cases hr : optionMap f rest with
      | none => simp [optionMap, hx, hr] at h
      | some ys =>
        simp [optionMap, hx, hr] at h
        subst h
        rcases List.mem_cons.mp hy with h1 | h1
        · exact ⟨x, List.mem_cons_self x rest, by rw [hx, h1]⟩
        · obtain ⟨x1, hx1, hfx1⟩ := ih ys hr y h1
          exact ⟨x1, List.mem_cons_of_mem x hx1, hfx1⟩

theorem length_survAux : ∀ (l : List Bool) (idx : Nat),
    (survAux idx l).length = countTrue l := by
  intro l
  induction l with
  | nil => intro idx; rfl
  | cons b r ih =>
    intro idx
    cases b <;> simp [survAux, countTrue, ih]

theorem survAux_shift : ∀ (l : List Bool) (idx : Nat),
    survAux idx l = (survAux 0 l).map (fun x => x + idx) := by
  intro l
  induction l with
  | nil => intro idx; rfl
  | cons b r ih =>
    intro idx
    cases b with
    | true =>
      simp only [survAux, List.map_cons, Nat.zero_add, List.cons.injEq, true_and]
      rw [ih (idx + 1), ih 1, List.map_map]
      congr 1
      funext x
      simp
      omega
    | false =>
      simp only [survAux]
      rw [ih (idx + 1), ih 1, List.map_map]
      congr 1
      funext x
      simp
      omega

theorem survAux_spec : ∀ (l : List Bool) (idx k : Nat), k < countTrue l →
    ∃ i, (survAux idx l).getD k 0 = idx + i ∧ i < l.length ∧
      l.getD i false = true ∧ countTrue (l.take i) = k := by
  intro l
  induction l with
  | nil => intro idx k hk; simp [countTrue] at hk
  | cons b r ih =>
    intro idx k hk
    cases b with
    | true =>
      cases k with
      | zero =>
        exact ⟨0, by simp [survAux], by simp, by simp, by simp [countTrue]⟩
      | succ k =>
        have hk1 : k < countTrue r := by simp [countTrue] at hk; omega
        obtain ⟨i, hg, hlen, hm, hc⟩ := ih (idx + 1) k hk1
        refine ⟨i + 1, ?_, by simp; omega, by simpa using hm, ?_⟩
        · simp only [survAux, List.getD_cons_succ]
          rw [hg]
          omega
        · rw [List.take_succ_cons]
          show countTrue (r.take i) + 1 = k + 1
          omega
    | false =>
      have hk1 : k < countTrue r := by simpa [countTrue] using hk
      obtain ⟨i, hg, hlen, hm, hc⟩ := ih (idx + 1) k hk1
      refine ⟨i + 1, ?_, by simp; omega, by simpa using hm, ?_⟩
      · simp only [survAux]
        rw [hg]
        omega
      · rw [List.take_succ_cons]
        show countTrue (r.take i) = k
        exact hc

theorem rank_surv : ∀ (l : List Bool) (i idx : Nat), l.getD i false = true →
    (survAux idx l).getD (countTrue (l.take i)) 0 = idx + i := by
  intro l
  induction l with
  | nil => intro i idx h; simp [List.getD] at h
  | cons b r ih =>
    intro i idx h
    cases i with
    | zero =>
      simp only [List.getD_cons_zero] at h
      subst h
      simp [survAux, countTrue]
    | succ i =>
      simp only [List.getD_cons_succ] at h
      cases b with
      | true =>
        have ht : (true :: r).take (i + 1) = true :: r.take i := rfl
        rw [ht]
        have hc : countTrue (true :: r.take i) = countTrue (r.take i) + 1 := rfl
        rw [hc]
        show (idx :: survAux (idx + 1) r).getD (countTrue (r.take i) + 1) 0 = idx + (i + 1)
        rw [List.getD_cons_succ, ih i (idx + 1) h]
        omega
      | false =>
        have ht : (false :: r).take (i + 1) = false :: r.take i := rfl
        rw [ht]
        have hc : countTrue (false :: r.take i) = countTrue (r.take i) := rfl
        rw [hc]
        show (survAux (idx + 1) r).getD (countTrue (r.take i)) 0 = idx + (i + 1)
        rw [ih i (idx + 1) h]
        omega

theorem length_renumberAux : ∀ (l : List Bool) (idx : Nat),
    (renumberAux idx l).length = l.length := by
  intro l
  induction l with
  | nil => intro idx; rfl
  | cons b r ih => intro idx; cases b <;> simp [renumberAux, ih]

theorem renumberAux_getD : ∀ (l : List Bool) (idx i : Nat),
    (renumberAux idx l).getD i none =
      if l.getD i false then some (idx + countTrue (l.take i)) else none := by
  intro l
  induction l with
  | nil => intro idx i; simp [renumberAux, List.getD]
  | cons b r ih =>
    intro idx i
    cases i with
    | zero =>
      cases b with
      | true => simp [renumberAux, countTrue]
      | false => simp [renumberAux]
    | succ i =>
      cases b with
      | true =>
        have hstep : (renumberAux idx (true :: r)).getD (i + 1) none =
            (renumberAux (idx + 1) r).getD i none := rfl
        rw [hstep, ih (idx + 1) i]
        simp only [List.getD_cons_succ, List.take_succ_cons]
        have hc : countTrue (true :: r.take i) = countTrue (r.take i) + 1 := rfl
        rw [hc]
        by_cases hr : r.getD i false
        · rw [if_pos hr, if_pos hr]
          congr 1
          omega
        · rw [if_neg hr, if_neg hr]
      | false =>
        have hstep : (renumberAux idx (false :: r)).getD (i + 1) none =
            (renumberAux idx r).getD i none := rfl
        rw [hstep, ih idx i]
        simp only [List.getD_cons_succ, List.take_succ_cons]
        have hc : countTrue (false :: r.take i) = countTrue (r.take i) := rfl
        rw [hc]

theorem keepUsed_eq_survivors : ∀ (nodes : List Node) (used : List Bool),
    used.length = nodes.length →
    keepUsed nodes used =
      (survivors used).map (fun i => nodes.getD i (.Input 0)) := by
  intro nodes
  induction nodes with
  | nil =>
    intro used hlen
    have : used = [] := List.eq_nil_of_length_eq_zero (by simpa using hlen)
    subst this
    rfl
  | cons n rest ih =>
    intro used hlen
    cases used with
    | nil => simp at hlen
    | cons b us =>
      have hlen1 : us.length = rest.length := by simpa using hlen
      cases b with
      | true =>
        have h1 : keepUsed (n :: rest) (true :: us) = n :: keepUsed rest us := by
          simp [keepUsed]
        rw [h1, ih us hlen1]
        show _ = (0 :: survAux 1 us).map (fun i => (n :: rest).getD i (.Input 0))
        rw [List.map_cons]
        simp only [List.getD_cons_zero]
        congr 1
        rw [survAux_shift us 1, List.map_map]
        unfold survivors
        congr 1
      | false =>
        have h1 : keepUsed (n :: rest) (false :: us) = keepUsed rest us := by
          simp [keepUsed]
        rw [h1, ih us hlen1]
        show _ = (survAux 1 us).map (fun i => (n :: rest).getD i (.Input 0))
        rw [survAux_shift us 1, List.map_map]
        unfold survivors
        congr 1

theorem markOutputsAux_spec : ∀ (outs : List Nat) (u u1 : List Bool),
    markOutputsAux u outs = some u1 →
    u1.length = u.length ∧
    (∀ o ∈ outs, o < u.length) ∧
    ∀ i, u1.getD i false = (u.getD i false || decide (i ∈ outs)) := by
  intro outs
  induction outs with
  | nil =>
    intro u u1 h
    simp only [markOutputsAux] at h
    cases h
    refine ⟨rfl, ?_, ?_⟩
    · intro o ho
      cases ho
    · intro i
      simp
  | cons o rest ih =>
    intro u u1 h
    simp only [markOutputsAux] at h
    by_cases ho : o < u.length
    · rw [if_pos ho] at h
      obtain ⟨hlen, hmem, hget⟩ := ih (u.set o true) u1 h
      refine ⟨by simpa using hlen, ?_, ?_⟩
      · intro x hx
        rcases List.mem_cons.mp hx with h1 | h1
        · omega
        · have := hmem x h1
          simpa using this
      · intro i
        rw [hget i]
        by_cases hio : i = o
        · subst hio
          rw [getD_set_eq u i true ho]
          simp
        · rw [getD_set_ne u o i true hio]
          by_cases hir : i ∈ rest <;> simp [hir, hio]
    · rw [if_neg ho] at h
      cases h

theorem valid_getD_ops (nodes : List Node) (hv : assert_valid nodes = true) :
    ∀ idx op a b, nodes.getD idx (.Input 0) = .Op op a b → a < idx ∧ b < idx := by
  intro idx op a b h
  by_cases hlt : idx < nodes.length
  · exact (assert_valid_iff nodes).mp hv idx hlt op a b h
  · rw [List.getD_eq_getElem?_getD, List.getElem?_eq_none (Nat.le_of_not_lt hlt)] at h
    cases h

theorem markScan_succ (nodes : List Node) (u : List Bool) (m : Nat) :
    markScan nodes u (m + 1) =
      markScan nodes
        (if u.getD m false then
          match nodes.getD m (.Input 0) with
          | .Op _ a b => (u.set a true).set b true
          | _ => u
        else u) m := rfl

theorem markScan_length (nodes : List Node) : ∀ (m : Nat) (u : List Bool),
    (markScan nodes u m).length = u.length := by
  intro m
  induction m with
  | zero => intro u; rfl
  | succ m ih =>
    intro u
    rw [markScan_succ, ih]
    by_cases hm : u.getD m false
    · rw [if_pos hm]
      cases hn : nodes.getD m (.Input 0) <;> simp
    · rw [if_neg hm]

theorem markScan_mono (nodes : List Node) : ∀ (m : Nat) (u : List Bool) (j : Nat),
    u.getD j false = true → (markScan nodes u m).getD j false = true := by
  intro m
  induction m with
  | zero => intro u j h; exact h
  | succ m ih =>
    intro u j h
    rw [markScan_succ]
    apply ih
    by_cases hm : u.getD m false
    · rw [if_pos hm]
      cases hn : nodes.getD m (.Input 0) with
      | Op op a b => exact getD_set_true_mono _ b j (getD_set_true_mono _ a j h)
      | Input i => exact h
      | Constant c => exact h
      | MontConstant c => exact h
    · rw [if_neg hm]
      exact h

theorem markScan_stable (nodes : List Node)
    (hv : ∀ idx op a b, nodes.getD idx (.Input 0) = .Op op a b → a < idx ∧ b < idx) :
    ∀ (m : Nat) (u : List Bool) (j : Nat), m ≤ j →
    (markScan nodes u m).getD j false = u.getD j false := by
  intro m
  induction m with
  | zero => intro u j _; rfl
  | succ m ih =>
    intro u j hj
    rw [markScan_succ, ih _ j (by omega)]
    by_cases hm : u.getD m false
    · rw [if_pos hm]
      cases hn : nodes.getD m (.Input 0) with
      | Op op a b =>
        obtain ⟨ha, hb⟩ := hv m op a b hn
        rw [getD_set_ne _ b j true (by omega), getD_set_ne _ a j true (by omega)]
      | Input i => rfl
      | Constant c => rfl
      | MontConstant c => rfl
    · rw [if_neg hm]

theorem markScan_closed (nodes : List Node)
    (hv : ∀ idx op a b, nodes.getD idx (.Input 0) = .Op op a b → a < idx ∧ b < idx) :
    ∀ (m : Nat) (u : List Bool), nodes.length ≤ u.length →
    ∀ i op a b, i < m → nodes.getD i (.Input 0) = .Op op a b →
    (markScan nodes u m).getD i false = true →
    (markScan nodes u m).getD a false = true ∧
      (markScan nodes u m).getD b false = true := by
  intro m
  induction m with
  | zero =>
    intro u hlen i op a b hi
    exact absurd hi (Nat.not_lt_zero i)
  | succ m ih =>
    intro u hlen i op a b hi hnode hmark
    rw [markScan_succ] at hmark ⊢
    have hlen1 : nodes.length ≤
        (if u.getD m false then
          match nodes.getD m (.Input 0) with
          | .Op _ a b => (u.set a true).set b true
          | _ => u
        else u).length := by
      by_cases hum : u.getD m false
      · rw [if_pos hum]
        cases hn : nodes.getD m (.Input 0) <;> simp <;> omega
      · rw [if_neg hum]
        omega
    by_cases him : i < m
    · exact ih _ hlen1 i op a b him hnode hmark
    · have hieq : i = m := by omega
      subst hieq
      have hmlen : i < nodes.length := by
        by_contra hc
        rw [List.getD_eq_getElem?_getD, List.getElem?_eq_none (by omega)] at hnode
        cases hnode
      obtain ⟨ha, hb⟩ := hv i op a b hnode
      by_cases hum : u.getD i false
      · rw [if_pos hum, hnode] at hmark ⊢
        have hau : a < u.length := by omega
        have hbu : b < u.length := by omega
        constructor
        · apply markScan_mono
          by_cases hab : a = b
          · subst hab
            exact getD_set_eq _ a true (by simpa using hau)
          · rw [getD_set_ne _ b a true hab]
            exact getD_set_eq u a true hau
        · apply markScan_mono
          exact getD_set_eq _ b true (by simpa using hbu)
      · rw [if_neg hum] at hmark
        rw [markScan_stable nodes hv i u i (Nat.le_refl i)] at hmark
        exact absurd hmark hum

theorem markScan_cert (nodes : List Node)
    (hv : ∀ idx op a b, nodes.getD idx (.Input 0) = .Op op a b → a < idx ∧ b < idx) :
    ∀ (m : Nat) (u : List Bool) (i : Nat),
    (markScan nodes u m).getD i false = true →
    u.getD i false = true ∨
    ∃ j op a b, i < j ∧ j < m ∧ (markScan nodes u m).getD j false = true ∧
      nodes.getD j (.Input 0) = .Op op a b ∧ (a = i ∨ b = i) := by
  intro m
  induction m with
  | zero => intro u i h; exact Or.inl h
  | succ m ih =>
    intro u i h
    rw [markScan_succ] at h
    rcases ih _ i h with h1 | ⟨j, op, a, b, hij, hjm, hmark, hnode, hop⟩
    · by_cases hum : u.getD m false
      · rw [if_pos hum] at h1
        cases hn : nodes.getD m (.Input 0) with
        | Op op a b =>
          rw [hn] at h1
          obtain ⟨ha, hb⟩ := hv m op a b hn
          by_cases hib : i = b
          · subst hib
            right
            refine ⟨m, op, a, i, hb, by omega, ?_, hn, Or.inr rfl⟩
            rw [markScan_succ, if_pos hum, hn]
            rw [markScan_stable nodes hv m _ m (Nat.le_refl m)]
            rw [getD_set_ne _ i m true (by omega), getD_set_ne _ a m true (by omega)]
            exact hum
          · by_cases hia : i = a
            · subst hia
              right
              refine ⟨m, op, i, b, ha, by omega, ?_, hn, Or.inl rfl⟩
              rw [markScan_succ, if_pos hum, hn]
              rw [markScan_stable nodes hv m _ m (Nat.le_refl m)]
              rw [getD_set_ne _ b m true (by omega), getD_set_ne _ i m true (by omega)]
              exact hum
            · rw [getD_set_ne _ b i true hib, getD_set_ne _ a i true hia] at h1
              exact Or.inl h1
        | Input k => rw [hn] at h1; exact Or.inl h1
        | Constant c => rw [hn] at h1; exact Or.inl h1
        | MontConstant c => rw [hn] at h1; exact Or.inl h1
      · rw [if_neg hum] at h1
        exact Or.inl h1
    · right
      refine ⟨j, op, a, b, hij, by omega, ?_, hnode, hop⟩
      rw [markScan_succ]
      exact hmark

theorem getD_replicate_false (n i : Nat) :
    (List.replicate n false).getD i false = false := by
  rw [List.getD_eq_getElem?_getD, List.getElem?_replicate]
  by_cases h : i < n <;> simp [h]

theorem getD_map {α β : Type} (f : α → β) (l : List α) (da : α) (db : β)
    (k : Nat) (h : k < l.length) : (l.map f).getD k db = f (l.getD k da) := by
  rw [List.getD_eq_getElem?_getD, List.getElem?_map, List.getElem?_eq_getElem h,
    List.getD_eq_getElem?_getD, List.getElem?_eq_getElem h]
  rfl

theorem tree_shake_elim (nodes : List Node) (outputs : List Nat)
    (nodes1 : List Node) (outputs1 : List Nat)
    (h : tree_shake nodes outputs = some (nodes1, outputs1)) :
    ∃ used0,
      assert_valid nodes = true ∧
      markOutputsAux (List.replicate nodes.length false) outputs = some used0 ∧
      optionMap (renumberNode (renumberAux 0 (markScan nodes used0 nodes.length)))
        (keepUsed nodes (markScan nodes used0 nodes.length)) = some nodes1 ∧
      optionMap (fun o => (renumberAux 0 (markScan nodes used0 nodes.length)).getD o none)
        outputs = some outputs1 := by
  simp only [tree_shake] at h
  by_cases hv : assert_valid nodes
  case neg => rw [if_neg hv] at h; cases h
  rw [if_pos hv] at h
  cases hmo : markOutputsAux (List.replicate nodes.length false) outputs with
  | none => simp only [hmo] at h; cases h
  | some used0 =>
    simp only [hmo] at h
    cases hn1 : optionMap
        (renumberNode (renumberAux 0 (markScan nodes used0 nodes.length)))
        (keepUsed nodes (markScan nodes used0 nodes.length)) with
    | none => simp only [hn1] at h; cases h
    | some ns1 =>
      simp only [hn1] at h
      cases ho1 : optionMap
          (fun o => (renumberAux 0 (markScan nodes used0 nodes.length)).getD o none)
          outputs with
      | none => simp only [ho1] at h; cases h
      | some os1 =>
        simp only [ho1, Option.some.injEq, Prod.mk.injEq] at h
        obtain ⟨h1, h2⟩ := h
        subst h1
        subst h2
        exact ⟨used0, hv, rfl, hn1, ho1⟩

theorem tree_shake_struct (nodes : List Node) (outputs : List Nat)
    (nodes1 : List Node) (outputs1 : List Nat)
    (h : tree_shake nodes outputs = some (nodes1, outputs1)) :
    ∃ used : List Bool,
      used.length = nodes.length ∧
      (∀ i op a b, nodes.getD i (.Input 0) = .Op op a b →
        used.getD i false = true →
        used.getD a false = true ∧ used.getD b false = true) ∧
      (∀ o ∈ outputs, o < nodes.length ∧ used.getD o false = true) ∧
      (∀ i, used.getD i false = true →
        i ∈ outputs ∨ ∃ j op a b, i < j ∧ j < nodes.length ∧
          used.getD j false = true ∧
          nodes.getD j (.Input 0) = .Op op a b ∧ (a = i ∨ b = i)) ∧
      nodes1.length = countTrue used ∧
      (∀ k, k < nodes1.length →
        ∃ i, i < nodes.length ∧ used.getD i false = true ∧ rank used i = k ∧
          (survivors used).getD k 0 = i ∧
          renumberNode (renumberAux 0 used) (nodes.getD i (.Input 0)) =
            some (nodes1.getD k (.Input 0))) ∧
      outputs1.length = outputs.length ∧
      (∀ t, t < outputs.length →
        used.getD (outputs.getD t 0) false = true ∧
        outputs1.getD t 0 = rank used (outputs.getD t 0)) := by
  obtain ⟨used0, hv, hmo, hn1, ho1⟩ := tree_shake_elim nodes outputs nodes1 outputs1 h
  obtain ⟨hmolen, hmem, hmoget⟩ := markOutputsAux_spec outputs _ used0 hmo
  have hvv := valid_getD_ops nodes hv
  have hu0len : used0.length = nodes.length := by rw [hmolen]; simp
  have hulen : (markScan nodes used0 nodes.length).length = nodes.length := by
    rw [markScan_length, hu0len]
  have hu0get : ∀ i, used0.getD i false = decide (i ∈ outputs) := by
    intro i
    rw [hmoget i, getD_replicate_false]
    simp
  have hkeep : keepUsed nodes (markScan nodes used0 nodes.length) =
      (survivors (markScan nodes used0 nodes.length)).map
        (fun i => nodes.getD i (.Input 0)) :=
    keepUsed_eq_survivors nodes _ hulen
  have hn1len : nodes1.length = countTrue (markScan nodes used0 nodes.length) := by
    have h1 := optionMap_length _ _ _ hn1
    rw [hkeep] at h1
    rw [h1, List.length_map]
    exact length_survAux _ 0
  refine ⟨markScan nodes used0 nodes.length, hulen, ?_, ?_, ?_, hn1len, ?_, ?_, ?_⟩
  · intro i op a b hnode hmark
    have hilen : i < nodes.length := by
      by_contra hc
      rw [List.getD_eq_getElem?_getD, List.getElem?_eq_none (by omega)] at hnode
      cases hnode
    exact markScan_closed nodes hvv nodes.length used0 (Nat.le_of_eq hu0len.symm)
      i op a b hilen hnode hmark
  · intro o ho
    constructor
    · have := hmem o ho
      simpa using this
    · apply markScan_mono
      rw [hu0get o]
      simpa using ho
  · intro i hmark
    rcases markScan_cert nodes hvv nodes.length used0 i hmark with h1 | hcert
    · left
      rw [hu0get i] at h1
      exact of_decide_eq_true h1
    · right
      exact hcert
  · intro k hk
    rw [hn1len] at hk
    obtain ⟨i, hgd, hilen, hmarked, hrankk⟩ := survAux_spec _ 0 k hk
    refine ⟨i, by omega, hmarked, hrankk, by simpa using hgd, ?_⟩
    have hklen : k < (keepUsed nodes (markScan nodes used0 nodes.length)).length := by
      rw [hkeep, List.length_map]
      rw [show (survivors (markScan nodes used0 nodes.length)).length =
        countTrue (markScan nodes used0 nodes.length) from length_survAux _ 0]
      exact hk
    have hgot := optionMap_getD _ (.Input 0) (.Input 0) _ nodes1 hn1 k hklen
    rw [hkeep] at hgot
    rw [getD_map (fun i => nodes.getD i (.Input 0)) _ 0 (.Input 0) k
      (by rw [show (survivors (markScan nodes used0 nodes.length)).length =
        countTrue (markScan nodes used0 nodes.length) from length_survAux _ 0]; exact hk)] at hgot
    rw [show (survivors (markScan nodes used0 nodes.length)).getD k 0 = i by
      simpa using hgd] at hgot
    exact hgot
  · exact optionMap_length _ _ _ ho1
  · intro t ht
    have hgot := optionMap_getD _ 0 0 _ outputs1 ho1 t ht
    rw [renumberAux_getD] at hgot
    by_cases hm : (markScan nodes used0 nodes.length).getD (outputs.getD t 0) false
    · rw [if_pos hm] at hgot
      refine ⟨hm, ?_⟩
      have h2 := Option.some.inj hgot
      unfold rank
      omega
    · rw [if_neg hm] at hgot
      cases hgot

theorem rank_inj (used : List Bool) (i j : Nat)
    (hi : used.getD i false = true) (hj : used.getD j false = true)
    (hr : rank used i = rank used j) : i = j := by
  rcases Nat.lt_trichotomy i j with h | h | h
  · have := rank_lt_rank used i j h hi
    omega
  · exact h
  · have := rank_lt_rank used j i h hj
    omega

theorem markOutputsAux_some : ∀ (outs : List Nat) (u : List Bool),
    (∀ o ∈ outs, o < u.length) → ∃ u1, markOutputsAux u outs = some u1 := by
  intro outs
  induction outs with
  | nil => intro u _; exact ⟨u, rfl⟩
  | cons o rest ih =>
    intro u hmem
    have ho : o < u.length := hmem o (List.mem_cons_self o rest)
    obtain ⟨u1, hu1⟩ := ih (u.set o true)
      (fun x hx => by rw [List.length_set]; exact hmem x (List.mem_cons_of_mem o hx))
    exact ⟨u1, by simp only [markOutputsAux, if_pos ho]; exact hu1⟩

theorem keepUsed_all_true : ∀ (ns : List Node) (u : List Bool),
    u.length = ns.length → (∀ k, k < u.length → u.getD k false = true) →
    keepUsed ns u = ns := by
  intro ns
  induction ns with
  | nil =>
    intro u hlen _
    have : u = [] := List.eq_nil_of_length_eq_zero (by simpa using hlen)
    subst this
    rfl
  | cons n rest ih =>
    intro u hlen hall
    cases u with
    | nil => simp at hlen
    | cons b us =>
      have hb : b = true := by simpa using hall 0 (by simp)
      subst hb
      have h1 : keepUsed (n :: rest) (true :: us) = n :: keepUsed rest us := by
        simp [keepUsed]
      rw [h1, ih us (by simpa using hlen)
        (fun k hk => by simpa using hall (k + 1) (by simpa using Nat.succ_lt_succ hk))]

theorem countTrue_take_all_true (u : List Bool)
    (hall : ∀ k, k < u.length → u.getD k false = true) :
    ∀ i, i ≤ u.length → countTrue (u.take i) = i := by
  intro i
  induction i with
  | zero => intro _; simp [countTrue]
  | succ i ih =>
    intro hi
    rw [countTrue_take_succ, ih (by omega), hall i (by omega)]
    simp

theorem optionMap_id_of_getD {α : Type} (f : α → Option α) (d : α) :
    ∀ (l : List α), (∀ k, k < l.length → f (l.getD k d) = some (l.getD k d)) →
    optionMap f l = some l := by
  intro l
  induction l with
  | nil => intro _; rfl
  | cons x rest ih =>
    intro hall
    have hx : f x = some x := by simpa using hall 0 (by simp)
    have hr : optionMap f rest = some rest :=
      ih (fun k hk => by simpa using hall (k + 1) (by simpa using Nat.succ_lt_succ hk))
    simp [optionMap, hx, hr]

theorem tree_shake_valid (nodes : List Node) (outputs : List Nat)
    (nodes1 : List Node) (outputs1 : List Nat)
    (h : tree_shake nodes outputs = some (nodes1, outputs1)) :
    assert_valid nodes1 = true ∧ ∀ o ∈ outputs1, o < nodes1.length := by
  obtain ⟨used, hulen, hclosed, houtm, hcert, hlen1, hnodes, holen, hout⟩ :=
    tree_shake_struct nodes outputs nodes1 outputs1 h
  obtain ⟨used0, hv, _, _, _⟩ := tree_shake_elim nodes outputs nodes1 outputs1 h
  constructor
  · rw [assert_valid_iff]
    intro k hk op1 a1 b1 hget
    obtain ⟨i, hilen, hmark, hranki, hsurv, hren⟩ := hnodes k hk
    rw [hget] at hren
    cases hnd : nodes.getD i (.Input 0) with
    | Op op a b =>
      rw [hnd] at hren
      obtain ⟨hma, hmb⟩ := hclosed i op a b hnd hmark
      obtain ⟨ha, hb⟩ := valid_getD_ops nodes hv i op a b hnd
      simp only [renumberNode] at hren
      rw [renumberAux_getD, renumberAux_getD, if_pos hma, if_pos hmb] at hren
      have h3 := Option.some.inj hren
      cases h3
      constructor
      · have hlt := rank_lt_rank used a i ha hma
        rw [hranki] at hlt
        unfold rank at hlt
        omega
      · have hlt := rank_lt_rank used b i hb hmb
        rw [hranki] at hlt
        unfold rank at hlt
        omega
    | Input j =>
      rw [hnd] at hren
      simp [renumberNode] at hren
    | Constant c =>
      rw [hnd] at hren
      simp [renumberNode] at hren
    | MontConstant c =>
      rw [hnd] at hren
      simp [renumberNode] at hren
  · intro o1 ho1mem
    obtain ⟨t, ht, hgett⟩ := List.getElem_of_mem ho1mem
    have ht2 : t < outputs.length := by rw [← holen]; exact ht
    obtain ⟨hmarko, hrk⟩ := hout t ht2
    have hgd : outputs1.getD t 0 = o1 := by
      rw [List.getD_eq_getElem?_getD, List.getElem?_eq_getElem ht, hgett]
      rfl
    rw [hgd] at hrk
    rw [hrk, hlen1]
    exact rank_lt_countTrue used _ hmarko

theorem mark_all_of_cert (nodes1 : List Node) (outputs1 : List Nat)
    (used0B : List Bool) (hv1 : assert_valid nodes1 = true)
    (hu0len : used0B.length = nodes1.length)
    (hu0get : ∀ i, used0B.getD i false = decide (i ∈ outputs1))
    (hcert : ∀ k, k < nodes1.length → k ∈ outputs1 ∨
      ∃ j op a b, k < j ∧ j < nodes1.length ∧
        nodes1.getD j (.Input 0) = .Op op a b ∧ (a = k ∨ b = k)) :
    ∀ k, k < nodes1.length →
    (markScan nodes1 used0B nodes1.length).getD k false = true := by
  have main : ∀ d k, k < nodes1.length → nodes1.length - k ≤ d →
      (markScan nodes1 used0B nodes1.length).getD k false = true := by
    intro d
    induction d with
    | zero => intro k hk hd; omega
    | succ d ih =>
      intro k hk hd
      rcases hcert k hk with hout | ⟨j, op, a, b, hkj, hjlen, hnode, hab⟩
      · apply markScan_mono
        rw [hu0get k]
        simpa using hout
      · have hjmark : (markScan nodes1 used0B nodes1.length).getD j false = true :=
          ih j hjlen (by omega)
        have hc := markScan_closed nodes1 (valid_getD_ops nodes1 hv1) nodes1.length
          used0B (by omega) j op a b hjlen hnode hjmark
        rcases hab with hha | hhb
        · rw [← hha]; exact hc.1
        · rw [← hhb]; exact hc.2
  intro k hk
  exact main (nodes1.length - k) k hk (Nat.le_refl _)

theorem tree_shake_new_cert (nodes : List Node) (outputs : List Nat)
    (nodes1 : List Node) (outputs1 : List Nat)
    (h : tree_shake nodes outputs = some (nodes1, outputs1)) :
    ∀ k, k < nodes1.length → k ∈ outputs1 ∨
      ∃ j op a b, k < j ∧ j < nodes1.length ∧
        nodes1.getD j (.Input 0) = .Op op a b ∧ (a = k ∨ b = k) := by
  obtain ⟨used, hulen, hclosed, houtm, hcert, hlen1, hnodes, holen, hout⟩ :=
    tree_shake_struct nodes outputs nodes1 outputs1 h
  intro k hk
  obtain ⟨i, hilen, hmark, hranki, hsurv, hren⟩ := hnodes k hk
  rcases hcert i hmark with hiout | ⟨j, op, a, b, hij, hjlen, hjmark, hjnode, hop⟩
  · left
    obtain ⟨t, ht, hgett⟩ := List.getElem_of_mem hiout
    obtain ⟨hmt, hrt⟩ := hout t ht
    have hgd : outputs.getD t 0 = i := by
      rw [List.getD_eq_getElem?_getD, List.getElem?_eq_getElem ht, hgett]
      rfl
    rw [hgd, hranki] at hrt
    have ht1 : t < outputs1.length := by omega
    have hgel : outputs1[t] = k := by
      rw [List.getD_eq_getElem?_getD, List.getElem?_eq_getElem ht1] at hrt
      simpa using hrt
    rw [← hgel]
    exact List.getElem_mem ht1
  · right
    have hkjlt : rank used j < countTrue used := rank_lt_countTrue used j hjmark
    obtain ⟨i2, hi2len, hmark2, hrank2, hsurv2, hren2⟩ :=
      hnodes (rank used j) (by omega)
    have hi2j : i2 = j := rank_inj used i2 j hmark2 hjmark hrank2
    subst hi2j
    rw [hjnode] at hren2
    obtain ⟨hma, hmb⟩ := hclosed i2 op a b hjnode hjmark
    simp only [renumberNode] at hren2
    rw [renumberAux_getD, renumberAux_getD, if_pos hma, if_pos hmb] at hren2
    have h3 := (Option.some.inj hren2).symm
    refine ⟨rank used i2, op, rank used a, rank used b, ?_, by omega, ?_, ?_⟩
    · have := rank_lt_rank used i i2 hij hmark
      omega
    · rw [h3]
      unfold rank
      congr 1 <;> omega
    · rcases hop with hha | hhb
      · left; rw [hha, hranki]
      · right; rw [hhb, hranki]

/-- C5: tree_shake is idempotent: a second run on the output of a successful
run is a no-op, returning exactly the same node sequence and outputs list. -/
theorem tree_shake_idempotent (nodes : List Node) (outputs : List Nat)
    (nodes1 : List Node) (outputs1 : List Nat)
    (h : tree_shake nodes outputs = some (nodes1, outputs1)) :
    tree_shake nodes1 outputs1 = some (nodes1, outputs1) := by
  obtain ⟨hv1, hor⟩ := tree_shake_valid nodes outputs nodes1 outputs1 h
  have hcertB := tree_shake_new_cert nodes outputs nodes1 outputs1 h
  obtain ⟨used0B, hmoB⟩ := markOutputsAux_some outputs1
    (List.replicate nodes1.length false) (by intro o ho; simpa using hor o ho)
  obtain ⟨hmoBlen, hmoBmem, hmoBget⟩ := markOutputsAux_spec outputs1 _ used0B hmoB
  have hu0Blen : used0B.length = nodes1.length := by rw [hmoBlen]; simp
  have hu0Bget : ∀ i, used0B.getD i false = decide (i ∈ outputs1) := by
    intro i
    rw [hmoBget i, getD_replicate_false]
    simp
  have hall := mark_all_of_cert nodes1 outputs1 used0B hv1 hu0Blen hu0Bget hcertB
  have husedBlen : (markScan nodes1 used0B nodes1.length).length = nodes1.length := by
    rw [markScan_length, hu0Blen]
  have hall2 : ∀ k, k < (markScan nodes1 used0B nodes1.length).length →
      (markScan nodes1 used0B nodes1.length).getD k false = true := by
    intro k hk
    exact hall k (by omega)
  have hkeepB : keepUsed nodes1 (markScan nodes1 used0B nodes1.length) = nodes1 :=
    keepUsed_all_true nodes1 _ husedBlen hall2
  have hrenB : ∀ i, i < nodes1.length →
      (renumberAux 0 (markScan nodes1 used0B nodes1.length)).getD i none = some i := by
    intro i hi
    rw [renumberAux_getD, if_pos (hall i hi)]
    rw [countTrue_take_all_true _ hall2 i (by omega)]
    rw [Nat.zero_add]
  have hOM1 : optionMap
      (renumberNode (renumberAux 0 (markScan nodes1 used0B nodes1.length)))
      nodes1 = some nodes1 := by
    apply optionMap_id_of_getD _ (.Input 0)
    intro k hk
    cases hnd : nodes1.getD k (.Input 0) with
    | Op op a b =>
      obtain ⟨ha, hb⟩ := valid_getD_ops nodes1 hv1 k op a b hnd
      simp only [renumberNode]
      rw [hrenB a (by omega), hrenB b (by omega)]
    | Input j => rfl
    | Constant c => rfl
    | MontConstant c => rfl
  have hOM2 : optionMap
      (fun o => (renumberAux 0 (markScan nodes1 used0B nodes1.length)).getD o none)
      outputs1 = some outputs1 := by
    apply optionMap_id_of_mem
    intro o ho
    exact hrenB o (hor o ho)
  simp only [tree_shake, if_pos hv1, hmoB, hkeepB, hOM1, hOM2]

/-- Witness for C5: a graph with one dead constant; the second tree_shake
run returns the first run's result unchanged. -/
theorem tree_shake_idempotent_witness :
    tree_shake [Node.Input 0, Node.Constant 7, Node.Op .Add 0 0] [2] =
      some ([Node.Input 0, Node.Op .Add 0 0], [1]) ∧
    tree_shake [Node.Input 0, Node.Op .Add 0 0] [1] =
      some ([Node.Input 0, Node.Op .Add 0 0], [1]) :=
  ⟨by decide,
    tree_shake_idempotent [Node.Input 0, Node.Constant 7, Node.Op .Add 0 0] [2]
      [Node.Input 0, Node.Op .Add 0 0] [1] (by decide)⟩

theorem randomEvalAux_length : ∀ (ns : List Node) (values : List Nat)
    (im : List (Nat × Nat)) (pm : List ((Operation × Nat × Nat) × Nat))
    (rng : Rng) (res : List Nat) (rng2 : Rng),
    randomEvalAux values im pm rng ns = some (res, rng2) →
    res.length = values.length + ns.length := by
  intro ns
  induction ns with
  | nil =>
    intro values im pm rng res rng2 h
    simp only [randomEvalAux, Option.some.injEq, Prod.mk.injEq] at h
    obtain ⟨h1, _⟩ := h
    subst h1
    simp
  | cons n rest ih =>
    intro values im pm rng res rng2 h
    cases n with
    | Constant c =>
      simp only [randomEvalAux] at h
      have := ih _ _ _ _ _ _ h
      simp at this
      simp
      omega
    | MontConstant c =>
      simp only [randomEvalAux] at h
      cases h
    | Input i =>
      simp only [randomEvalAux] at h
      cases hl : lookupInput im i with
      | some v =>
        simp only [hl] at h
        have := ih _ _ _ _ _ _ h
        simp at this
        simp
        omega
      | none =>
        simp only [hl, Rng.next] at h
        have := ih _ _ _ _ _ _ h
        simp at this
        simp
        omega
    | Op op a b =>
      simp only [randomEvalAux] at h
      cases ha : values[a]? with
      | none => simp only [ha] at h; cases h
      | some va =>
        cases hb : values[b]? with
        | none => simp only [ha, hb] at h; cases h
        | some vb =>
          simp only [ha, hb] at h
          by_cases halg : algebraicOp op
          · rw [if_pos halg] at h
            cases hev : op.eval va vb with
            | none => simp only [hev] at h; cases h
            | some v =>
              simp only [hev] at h
              have := ih _ _ _ _ _ _ h
              simp at this
              simp
              omega
          · rw [if_neg halg] at h
            cases hlp : lookupPrf pm (op, va, vb) with
            | some v =>
              simp only [hlp] at h
              have := ih _ _ _ _ _ _ h
              simp at this
              simp
              omega
            | none =>
              simp only [hlp, Rng.next] at h
              have := ih _ _ _ _ _ _ h
              simp at this
              simp
              omega

theorem random_eval_length (nodes : List Node) (rng : Rng) (values : List Nat)
    (rng1 : Rng) (h : random_eval nodes rng = some (values, rng1)) :
    values.length = nodes.length := by
  have := randomEvalAux_length nodes [] [] [] rng values rng1 h
  simpa using this

theorem firstIdx_le : ∀ (l : List Nat) (a : Nat), a < l.length →
    firstIdx l (l.getD a 0) ≤ a := by
  intro l
  induction l with
  | nil => intro a ha; simp at ha
  | cons x r ih =>
    intro a ha
    cases a with
    | zero => simp [firstIdx]
    | succ a =>
      simp only [List.getD_cons_succ, firstIdx]
      by_cases hx : x = r.getD a 0
      · rw [if_pos hx]
        omega
      · rw [if_neg hx]
        have := ih a (by simpa using Nat.lt_of_succ_lt_succ ha)
        omega

theorem firstIdx_lt_length : ∀ (l : List Nat) (v : Nat),
    (∃ a, a < l.length ∧ l.getD a 0 = v) → firstIdx l v < l.length := by
  intro l
  induction l with
  | nil => intro v ⟨a, ha, _⟩; simp at ha
  | cons x r ih =>
    intro v ⟨a, ha, hget⟩
    simp only [firstIdx]
    by_cases hx : x = v
    · rw [if_pos hx]; simp
    · rw [if_neg hx]
      simp only [List.length_cons]
      have : firstIdx r v < r.length := by
        apply ih
        cases a with
        | zero => simp at hget; exact absurd hget hx
        | succ a => exact ⟨a, by simpa using Nat.lt_of_succ_lt_succ ha, by simpa using hget⟩
      omega

theorem firstIdx_getD : ∀ (l : List Nat) (v : Nat),
    (∃ a, a < l.length ∧ l.getD a 0 = v) → l.getD (firstIdx l v) 0 = v := by
  intro l
  induction l with
  | nil => intro v ⟨a, ha, _⟩; simp at ha
  | cons x r ih =>
    intro v ⟨a, ha, hget⟩
    simp only [firstIdx]
    by_cases hx : x = v
    · rw [if_pos hx]
      simpa using hx
    · rw [if_neg hx]
      simp only [List.getD_cons_succ]
      apply ih
      cases a with
      | zero => simp at hget; exact absurd hget hx
      | succ a => exact ⟨a, by simpa using Nat.lt_of_succ_lt_succ ha, by simpa using hget⟩

theorem value_numbering_elim (nodes : List Node) (outputs : List Nat) (rng : Rng)
    (nodes1 : List Node) (outputs1 : List Nat) (rng1 : Rng)
    (h : value_numbering nodes outputs rng = some (nodes1, outputs1, rng1)) :
    ∃ values, assert_valid nodes = true ∧
      random_eval nodes rng = some (values, rng1) ∧
      optionMap (fun n =>
        match n with
        | .Op op a b =>
          match (values.map (fun v => firstIdx values v))[a]?,
              (values.map (fun v => firstIdx values v))[b]? with
          | some a1, some b1 => some (.Op op a1 b1)
          | _, _ => none
        | n => some n) nodes = some nodes1 ∧
      optionMap (fun o => (values.map (fun v => firstIdx values v))[o]?) outputs =
        some outputs1 := by
  simp only [value_numbering] at h
  by_cases hv : assert_valid nodes
  case neg => rw [if_neg hv] at h; cases h
  rw [if_pos hv] at h
  cases hre : random_eval nodes rng with
  | none => simp only [hre] at h; cases h
  | some p =>
    obtain ⟨values, rngA⟩ := p
    simp only [hre] at h
    cases hn1 : optionMap (fun n =>
        match n with
        | .Op op a b =>
          match (values.map (fun v => firstIdx values v))[a]?,
              (values.map (fun v => firstIdx values v))[b]? with
          | some a1, some b1 => some (.Op op a1 b1)
          | _, _ => none
        | n => some n) nodes with
    | none => simp only [hn1] at h; cases h
    | some ns1 =>
      simp only [hn1] at h
      cases ho1 : optionMap (fun o => (values.map (fun v => firstIdx values v))[o]?)
          outputs with
      | none => simp only [ho1] at h; cases h
      | some os1 =>
        simp only [ho1, Option.some.injEq, Prod.mk.injEq] at h
        obtain ⟨h1, h2, h3⟩ := h
        subst h1
        subst h2
        subst h3
        exact ⟨values, hv, rfl, hn1, ho1⟩

theorem constants_elim (nodes : List Node) (rng : Rng) (nodes1 : List Node)
    (rng1 : Rng) (h : constants nodes rng = some (nodes1, rng1)) :
    ∃ va rngA vb, assert_valid nodes = true ∧
      random_eval nodes rng = some (va, rngA) ∧
      random_eval nodes rngA = some (vb, rng1) ∧
      nodes1 = (List.range nodes.length).map (fun i =>
        match nodes.getD i (.Input 0) with
        | .Constant c => .Constant c
        | n => if va.getD i 0 = vb.getD i 0 then .Constant (va.getD i 0) else n) := by
  simp only [constants] at h
  by_cases hv : assert_valid nodes
  case neg => rw [if_neg hv] at h; cases h
  rw [if_pos hv] at h
  cases hra : random_eval nodes rng with
  | none => simp only [hra] at h; cases h
  | some pa =>
    obtain ⟨va, rngA⟩ := pa
    simp only [hra] at h
    cases hrb : random_eval nodes rngA with
    | none => simp only [hrb] at h; cases h
    | some pb =>
      obtain ⟨vb, rngB⟩ := pb
      simp only [hrb, Option.some.injEq, Prod.mk.injEq] at h
      obtain ⟨h1, h2⟩ := h
      subst h2
      exact ⟨va, rngA, vb, hv, rfl, hrb, h1.symm⟩

theorem claimFold_op_inv (env : List Node) (n : Node) (op1 : Operation)
    (a1 b1 : Nat) (h : claimFold env n = .Op op1 a1 b1) : n = .Op op1 a1 b1 := by
  cases n with
  | Op op a b =>
    simp only [claimFold] at h
    cases hea : env.getD a (.Input 0) <;> cases heb : env.getD b (.Input 0) <;>
      rw [hea, heb] at h <;>
      first
      | (by_cases hab : a = b
         · rw [if_pos hab] at h
           cases htf : trivialEqFold op <;> rw [htf] at h
           · exact h
           · exact absurd h (by simp)
         · rw [if_neg hab] at h
           exact h)
      | (exact absurd h (by simp))
  | Input i => exact absurd h (by simp [claimFold])
  | Constant c => exact absurd h (by simp [claimFold])
  | MontConstant c => exact absurd h (by simp [claimFold])

theorem propagate_valid (nodes result : List Node)
    (h : propagate nodes = some result) :
    assert_valid result = true ∧ result.length = nodes.length := by
  have hv : assert_valid nodes = true := by
    by_contra hc
    unfold propagate at h
    rw [if_neg hc] at h
    cases h
  obtain ⟨hlen, hspec⟩ := propagate_spec nodes result h
  refine ⟨?_, hlen⟩
  rw [assert_valid_iff]
  intro k hk op1 a1 b1 hget
  have hk2 : k < nodes.length := by omega
  have hcf := hspec k hk2
  rw [hget] at hcf
  have hold := claimFold_op_inv result (nodes.getD k (.Input 0)) op1 a1 b1 hcf.symm
  exact (assert_valid_iff nodes).mp hv k hk2 op1 a1 b1 hold

theorem value_numbering_valid (nodes : List Node) (outputs : List Nat) (rng : Rng)
    (nodes1 : List Node) (outputs1 : List Nat) (rng1 : Rng)
    (h : value_numbering nodes outputs rng = some (nodes1, outputs1, rng1)) :
    assert_valid nodes1 = true ∧ nodes1.length = nodes.length ∧
    ∀ o1 ∈ outputs1, o1 < nodes1.length := by
  obtain ⟨values, hv, hre, hn1, ho1⟩ :=
    value_numbering_elim nodes outputs rng nodes1 outputs1 rng1 h
  have hvlen : values.length = nodes.length := random_eval_length nodes rng values rng1 hre
  have hlen1 : nodes1.length = nodes.length := optionMap_length _ _ _ hn1
  have hrenGet : ∀ x, x < values.length →
      (values.map (fun v => firstIdx values v))[x]? =
        some (firstIdx values (values.getD x 0)) := by
    intro x hx
    rw [List.getElem?_map, List.getElem?_eq_getElem hx]
    simp [List.getD_eq_getElem?_getD, List.getElem?_eq_getElem hx]
  refine ⟨?_, hlen1, ?_⟩
  · rw [assert_valid_iff]
    intro k hk op1 a1 b1 hget
    have hk2 : k < nodes.length := by omega
    have hstep := optionMap_getD _ (.Input 0) (.Input 0) _ _ hn1 k hk2
    rw [hget] at hstep
    cases hnd : nodes.getD k (.Input 0) with
    | Op op a b =>
      rw [hnd] at hstep
      obtain ⟨ha, hb⟩ := (assert_valid_iff nodes).mp hv k hk2 op a b hnd
      have hstep2 : (match (values.map (fun v => firstIdx values v))[a]?,
          (values.map (fun v => firstIdx values v))[b]? with
        | some a2, some b2 => some (Node.Op op a2 b2)
        | _, _ => none) = some (Node.Op op1 a1 b1) := hstep
      rw [hrenGet a (by omega), hrenGet b (by omega)] at hstep2
      have h3 := Option.some.inj hstep2
      cases h3
      constructor
      · have := firstIdx_le values a (by omega)
        omega
      · have := firstIdx_le values b (by omega)
        omega
    | Input j =>
      rw [hnd] at hstep
      have hstep2 : (some (Node.Input j) : Option Node) =
          some (Node.Op op1 a1 b1) := hstep
      simp at hstep2
    | Constant c =>
      rw [hnd] at hstep
      have hstep2 : (some (Node.Constant c) : Option Node) =
          some (Node.Op op1 a1 b1) := hstep
      simp at hstep2
    | MontConstant c =>
      rw [hnd] at hstep
      have hstep2 : (some (Node.MontConstant c) : Option Node) =
          some (Node.Op op1 a1 b1) := hstep
      simp at hstep2
  · intro x1 hx1
    obtain ⟨o, hom, hoget⟩ := optionMap_mem _ _ _ ho1 x1 hx1
    have holt : o < values.length := by
      by_contra hc
      rw [List.getElem?_map, List.getElem?_eq_none (by omega)] at hoget
      cases hoget
    rw [hrenGet o holt] at hoget
    have h3 := Option.some.inj hoget
    rw [← h3, hlen1, ← hvlen]
    exact firstIdx_lt_length values _ ⟨o, holt, rfl⟩

theorem constants_valid (nodes : List Node) (rng : Rng) (nodes1 : List Node)
    (rng1 : Rng) (h : constants nodes rng = some (nodes1, rng1)) :
    assert_valid nodes1 = true ∧ nodes1.length = nodes.length := by
  obtain ⟨va, rngA, vb, hv, hra, hrb, hform⟩ := constants_elim nodes rng nodes1 rng1 h
  have hlen1 : nodes1.length = nodes.length := by rw [hform]; simp
  refine ⟨?_, hlen1⟩
  rw [assert_valid_iff]
  intro k hk op1 a1 b1 hget
  have hk2 : k < nodes.length := by omega
  have hrk : (List.range nodes.length).getD k 0 = k := by
    rw [List.getD_eq_getElem?_getD, List.getElem?_range hk2]
    rfl
  have hgetk : nodes1.getD k (Node.Input 0) =
      (fun i =>
        match nodes.getD i (Node.Input 0) with
        | Node.Constant c => Node.Constant c
        | n => if va.getD i 0 = vb.getD i 0 then Node.Constant (va.getD i 0) else n) k := by
    rw [hform]
    have := getD_map (fun i =>
        match nodes.getD i (Node.Input 0) with
        | Node.Constant c => Node.Constant c
        | n => if va.getD i 0 = vb.getD i 0 then Node.Constant (va.getD i 0) else n)
      (List.range nodes.length) 0 (Node.Input 0) k (by simpa using hk2)
    rw [this, hrk]
  rw [hgetk] at hget
  have hget2 : (match nodes.getD k (Node.Input 0) with
      | Node.Constant c => Node.Constant c
      | n => if va.getD k 0 = vb.getD k 0 then Node.Constant (va.getD k 0) else n) =
      Node.Op op1 a1 b1 := hget
  cases hnd : nodes.getD k (Node.Input 0) with
  | Op op a b =>
    rw [hnd] at hget2
    have hget3 : (if va.getD k 0 = vb.getD k 0 then Node.Constant (va.getD k 0)
        else Node.Op op a b) = Node.Op op1 a1 b1 := hget2
    by_cases heq : va.getD k 0 = vb.getD k 0
    · rw [if_pos heq] at hget3
      cases hget3
    · rw [if_neg heq] at hget3
      cases hget3
      exact (assert_valid_iff nodes).mp hv k hk2 op1 a1 b1 hnd
  | Input j =>
    rw [hnd] at hget2
    have hget3 : (if va.getD k 0 = vb.getD k 0 then Node.Constant (va.getD k 0)
        else Node.Input j) = Node.Op op1 a1 b1 := hget2
    by_cases heq : va.getD k 0 = vb.getD k 0
    · rw [if_pos heq] at hget3
      cases hget3
    · rw [if_neg heq] at hget3
      cases hget3
  | Constant c =>
    rw [hnd] at hget2
    cases hget2
  | MontConstant c =>
    rw [hnd] at hget2
    have hget3 : (if va.getD k 0 = vb.getD k 0 then Node.Constant (va.getD k 0)
        else Node.MontConstant c) = Node.Op op1 a1 b1 := hget2
    by_cases heq : va.getD k 0 = vb.getD k 0
    · rw [if_pos heq] at hget3
      cases hget3
    · rw [if_neg heq] at hget3
      cases hget3

theorem montgomery_form_valid (nodes : List Node)
    (hv : assert_valid nodes = true) :
    assert_valid (montgomery_form nodes) = true ∧
    (montgomery_form nodes).length = nodes.length := by
  have hlen : (montgomery_form nodes).length = nodes.length := by
    simp [montgomery_form]
  refine ⟨?_, hlen⟩
  rw [assert_valid_iff]
  intro k hk op1 a1 b1 hget
  have hk2 : k < nodes.length := by omega
  have hgetk : (montgomery_form nodes).getD k (.Input 0) =
      (fun n =>
        match n with
        | Node.Constant c => Node.MontConstant (frNew c)
        | n => n) (nodes.getD k (.Input 0)) := by
    unfold montgomery_form
    exact getD_map (fun n =>
      match n with
      | Node.Constant c => Node.MontConstant (frNew c)
      | n => n) nodes (Node.Input 0) (Node.Input 0) k hk2
  rw [hgetk] at hget
  cases hnd : nodes.getD k (.Input 0) with
  | Op op a b =>
    rw [hnd] at hget
    cases hget
    exact (assert_valid_iff nodes).mp hv k hk2 op1 a1 b1 hnd
  | Input j => rw [hnd] at hget; cases hget
  | Constant c => rw [hnd] at hget; cases hget
  | MontConstant c => rw [hnd] at hget; cases hget

/-- C6: every pass, on a graph satisfying the backward-reference invariant
with all output indices in range, yields a graph that still satisfies the
invariant, with every output index still in range (tree_shake rewrites the
output list; the other passes keep the node count, so the original outputs
stay in range). -/
theorem passes_preserve_invariants (nodes : List Node) (outputs : List Nat)
    (rng : Rng) (hv : assert_valid nodes = true)
    (hor : ∀ o ∈ outputs, o < nodes.length) :
    (∀ nodes1 outputs1, tree_shake nodes outputs = some (nodes1, outputs1) →
      assert_valid nodes1 = true ∧ ∀ o ∈ outputs1, o < nodes1.length) ∧
    (∀ nodes1, propagate nodes = some nodes1 →
      assert_valid nodes1 = true ∧ ∀ o ∈ outputs, o < nodes1.length) ∧
    (∀ nodes1 outputs1 rng1,
      value_numbering nodes outputs rng = some (nodes1, outputs1, rng1) →
      assert_valid nodes1 = true ∧ ∀ o ∈ outputs1, o < nodes1.length) ∧
    (∀ nodes1 rng1, constants nodes rng = some (nodes1, rng1) →
      assert_valid nodes1 = true ∧ ∀ o ∈ outputs, o < nodes1.length) ∧
    (assert_valid (montgomery_form nodes) = true ∧
      ∀ o ∈ outputs, o < (montgomery_form nodes).length) := by
  refine ⟨?_, ?_, ?_, ?_, ?_⟩
  · intro nodes1 outputs1 h
    exact tree_shake_valid nodes outputs nodes1 outputs1 h
  · intro nodes1 h
    obtain ⟨hva, hlen⟩ := propagate_valid nodes nodes1 h
    exact ⟨hva, fun o ho => by rw [hlen]; exact hor o ho⟩
  · intro nodes1 outputs1 rng1 h
    obtain ⟨hva, hlen, hrange⟩ :=
      value_numbering_valid nodes outputs rng nodes1 outputs1 rng1 h
    exact ⟨hva, hrange⟩
  · intro nodes1 rng1 h
    obtain ⟨hva, hlen⟩ := constants_valid nodes rng nodes1 rng1 h
    exact ⟨hva, fun o ho => by rw [hlen]; exact hor o ho⟩
  · obtain ⟨hva, hlen⟩ := montgomery_form_valid nodes hv
    exact ⟨hva, fun o ho => by rw [hlen]; exact hor o ho⟩

/-- Witness for C6: all five passes applied to a concrete well-formed graph
(with one dead constant and a trivially-true comparison), the invariant
checked on each result. -/
theorem passes_preserve_invariants_witness :
    (assert_valid [Node.Input 0, Node.Constant 7, Node.Op .Add 0 0,
        Node.Op .Eq 1 1] = true ∧
      ∀ o ∈ ([2, 3] : List Nat), o < ([Node.Input 0, Node.Constant 7,
        Node.Op .Add 0 0, Node.Op .Eq 1 1] : List Node).length) ∧
    (assert_valid [Node.Input 0, Node.Constant 7, Node.Op .Add 0 0,
        Node.Constant 1] = true ∧
      ∀ o ∈ ([2, 3] : List Nat), o < ([Node.Input 0, Node.Constant 7,
        Node.Op .Add 0 0, Node.Constant 1] : List Node).length) ∧
    (assert_valid [Node.Input 0, Node.Constant 7, Node.Op .Add 0 0,
        Node.Op .Eq 1 1] = true ∧
      ∀ o ∈ ([2, 2] : List Nat), o < ([Node.Input 0, Node.Constant 7,
        Node.Op .Add 0 0, Node.Op .Eq 1 1] : List Node).length) ∧
    (assert_valid [Node.Input 0, Node.Constant 7, Node.Op .Add 0 0,
        Node.Op .Eq 1 1] = true ∧
      ∀ o ∈ ([2, 3] : List Nat), o < ([Node.Input 0, Node.Constant 7,
        Node.Op .Add 0 0, Node.Op .Eq 1 1] : List Node).length) ∧
    (assert_valid (montgomery_form [Node.Input 0, Node.Constant 7,
        Node.Op .Add 0 0, Node.Op .Eq 1 1]) = true ∧
      ∀ o ∈ ([2, 3] : List Nat), o < (montgomery_form [Node.Input 0,
        Node.Constant 7, Node.Op .Add 0 0, Node.Op .Eq 1 1]).length) := by
  have H := passes_preserve_invariants
    [Node.Input 0, Node.Constant 7, Node.Op .Add 0 0, Node.Op .Eq 1 1]
    [2, 3] ⟨[1, 2, 3, 4], 0⟩ (by decide) (by decide)
  exact ⟨H.1 _ _ (by decide), H.2.1 _ (by decide),
    H.2.2.1 _ _ (⟨[1, 2, 3, 4], 2⟩ : Rng) (by decide),
    H.2.2.2.1 _ (⟨[1, 2, 3, 4], 4⟩ : Rng) (by decide), H.2.2.2.2⟩

theorem getElem?_eq_some_getD {α : Type} (l : List α) (d : α) (i : Nat)
    (h : i < l.length) : l[i]? = some (l.getD i d) := by
  rw [List.getD_eq_getElem?_getD, List.getElem?_eq_getElem h]
  rfl

theorem evalAux_spec : ∀ (ns : List Node) (inputs acc vs : List Nat),
    evalAux inputs acc ns = some vs →
    vs.length = acc.length + ns.length ∧
    vs.take acc.length = acc ∧
    ∀ k, k < ns.length →
      evalNode inputs (vs.take (acc.length + k)) (ns.getD k (.Input 0)) =
        some (vs.getD (acc.length + k) 0) := by
  intro ns
  induction ns with
  | nil =>
    intro inputs acc vs h
    simp only [evalAux] at h
    cases h
    exact ⟨by simp, by simp, fun k hk => by simp at hk⟩
  | cons n rest ih =>
    intro inputs acc vs h
    cases he : evalNode inputs acc n with
    | none => simp only [evalAux, he] at h; cases h
    | some v =>
      simp only [evalAux, he] at h
      obtain ⟨hlen, htake1, hspec⟩ := ih inputs (acc ++ [v]) vs h
      have hA : (acc ++ [v]).length = acc.length + 1 := by simp
      rw [hA] at hlen htake1
      have htake0 : vs.take acc.length = acc := by
        have h1 : vs.take acc.length = (vs.take (acc.length + 1)).take acc.length := by
          rw [List.take_take]
          congr 1
          omega
        rw [h1, htake1]
        exact List.take_left acc [v]
      have hget0 : vs.getD acc.length 0 = v := getD_of_take_eq vs acc v 0 htake1
      refine ⟨by simp; omega, htake0, ?_⟩
      intro k hk
      cases k with
      | zero =>
        simp only [List.getD_cons_zero, Nat.add_zero]
        rw [htake0, hget0]
        exact he
      | succ k =>
        have hk1 : k < rest.length := by simp at hk; omega
        have hsp := hspec k hk1
        rw [hA] at hsp
        rw [show acc.length + 1 + k = acc.length + (k + 1) from by omega] at hsp
        simpa using hsp

theorem evalAux_build : ∀ (ns : List Node) (inputs acc vs : List Nat),
    vs.length = acc.length + ns.length →
    vs.take acc.length = acc →
    (∀ k, k < ns.length →
      evalNode inputs (vs.take (acc.length + k)) (ns.getD k (.Input 0)) =
        some (vs.getD (acc.length + k) 0)) →
    evalAux inputs acc ns = some vs := by
  intro ns
  induction ns with
  | nil =>
    intro inputs acc vs hlen htake _
    have hva : vs = acc := by
      rw [← htake, List.take_of_length_le (by simp at hlen; omega)]
    simp only [evalAux, hva]
  | cons n rest ih =>
    intro inputs acc vs hlen htake hspec
    have hlt : acc.length < vs.length := by simp at hlen; omega
    have h0 := hspec 0 (by simp)
    simp only [List.getD_cons_zero, Nat.add_zero] at h0
    rw [htake] at h0
    simp only [evalAux, h0]
    refine ih inputs (acc ++ [vs.getD acc.length 0]) vs ?_ ?_ ?_
    · simp at hlen ⊢
      omega
    · have hA : (acc ++ [vs.getD acc.length 0]).length = acc.length + 1 := by simp
      rw [hA, List.take_succ, htake, getElem?_eq_some_getD vs 0 acc.length hlt]
      rfl
    · intro k hk
      have hsp := hspec (k + 1) (by simp at hk ⊢; omega)
      simp only [List.getD_cons_succ] at hsp
      rw [show acc.length + (k + 1) =
        (acc ++ [vs.getD acc.length 0]).length + k from by simp; omega] at hsp
      exact hsp

theorem evaluateValues_spec (nodes : List Node) (inputs vs : List Nat)
    (h : evaluateValues nodes inputs = some vs) :
    vs.length = nodes.length ∧
    ∀ k, k < nodes.length →
      evalNode inputs (vs.take k) (nodes.getD k (.Input 0)) =
        some (vs.getD k 0) := by
  obtain ⟨hlen, _, hspec⟩ := evalAux_spec nodes inputs [] vs h
  refine ⟨by simpa using hlen, ?_⟩
  intro k hk
  have := hspec k hk
  simpa using this

theorem evaluateValues_build (nodes : List Node) (inputs vs : List Nat)
    (hlen : vs.length = nodes.length)
    (hspec : ∀ k, k < nodes.length →
      evalNode inputs (vs.take k) (nodes.getD k (.Input 0)) =
        some (vs.getD k 0)) :
    evaluateValues nodes inputs = some vs := by
  apply evalAux_build nodes inputs [] vs (by simpa using hlen) (by simp)
  intro k hk
  have := hspec k hk
  simpa using this

theorem evalNode_op_take (inputs vs : List Nat) (k : Nat) (op : Operation)
    (a b : Nat) (ha : a < k) (hb : b < k) (hav : a < vs.length)
    (hbv : b < vs.length) :
    evalNode inputs (vs.take k) (.Op op a b) =
      op.eval_fr (vs.getD a 0) (vs.getD b 0) := by
  simp only [evalNode]
  rw [List.getElem?_take_of_lt ha, List.getElem?_take_of_lt hb,
    getElem?_eq_some_getD vs 0 a hav, getElem?_eq_some_getD vs 0 b hbv]

theorem optionMap_build {α β : Type} (f : α → Option β) (d : α) (e : β) :
    ∀ (l : List α) (l1 : List β), l1.length = l.length →
    (∀ k, k < l.length → f (l.getD k d) = some (l1.getD k e)) →
    optionMap f l = some l1 := by
  intro l
  induction l with
  | nil =>
    intro l1 hlen _
    have : l1 = [] := List.eq_nil_of_length_eq_zero (by simpa using hlen)
    subst this
    rfl
  | cons x rest ih =>
    intro l1 hlen hspec
    cases l1 with
    | nil => simp at hlen
    | cons y ys =>
      have h0 := hspec 0 (by simp)
      simp only [List.getD_cons_zero] at h0
      have hr := ih ys (by simpa using hlen) (fun k hk => by
        have := hspec (k + 1) (by simp; omega)
        simpa using this)
      simp [optionMap, h0, hr]

theorem tree_shake_preserves_evaluate (nodes : List Node) (outputs : List Nat)
    (nodes1 : List Node) (outputs1 : List Nat) (inputs out : List Nat)
    (hts : tree_shake nodes outputs = some (nodes1, outputs1))
    (hev : evaluate nodes inputs outputs = some out) :
    evaluate nodes1 inputs outputs1 = some out := by
  obtain ⟨used0, hvx, _, _, _⟩ := tree_shake_elim nodes outputs nodes1 outputs1 hts
  obtain ⟨used, hulen, hclosed, houtm, hcert, hlen1, hnodes, holen, hout⟩ :=
    tree_shake_struct nodes outputs nodes1 outputs1 hts
  unfold evaluate at hev ⊢
  cases hvs : evaluateValues nodes inputs with
  | none => rw [hvs] at hev; cases hev
  | some vs =>
    rw [hvs] at hev
    obtain ⟨hvslen, hvsspec⟩ := evaluateValues_spec nodes inputs vs hvs
    have hslen : (survivors used).length = countTrue used := length_survAux used 0
    have hvs1len : ((survivors used).map (fun i => vs.getD i 0)).length =
        nodes1.length := by
      rw [List.length_map, hslen, hlen1]
    have hσget : ∀ k, k < nodes1.length →
        ((survivors used).map (fun i => vs.getD i 0)).getD k 0 =
          vs.getD ((survivors used).getD k 0) 0 := by
      intro k hk
      exact getD_map _ _ 0 0 k (by rw [hslen, ← hlen1]; exact hk)
    have hσrank : ∀ x, used.getD x false = true →
        (survivors used).getD (rank used x) 0 = x := by
      intro x hx
      have := rank_surv used x 0 hx
      unfold rank
      simpa [survivors] using this
    have hval1 : evaluateValues nodes1 inputs =
        some ((survivors used).map (fun i => vs.getD i 0)) := by
      apply evaluateValues_build _ _ _ hvs1len
      intro k hk
      obtain ⟨i, hilen, hmark, hranki, hsurvk, hren⟩ := hnodes k hk
      have hvk : ((survivors used).map (fun i => vs.getD i 0)).getD k 0 =
          vs.getD i 0 := by
        rw [hσget k hk, hsurvk]
      cases hnd : nodes.getD i (.Input 0) with
      | Input j =>
        rw [hnd] at hren
        have hn1k : nodes1.getD k (.Input 0) = .Input j := (Option.some.inj hren).symm
        rw [hn1k, hvk]
        have horig := hvsspec i hilen
        rw [hnd] at horig
        exact horig
      | Constant c =>
        rw [hnd] at hren
        have hn1k : nodes1.getD k (.Input 0) = .Constant c := (Option.some.inj hren).symm
        rw [hn1k, hvk]
        have horig := hvsspec i hilen
        rw [hnd] at horig
        exact horig
      | MontConstant c =>
        rw [hnd] at hren
        have hn1k : nodes1.getD k (.Input 0) = .MontConstant c := (Option.some.inj hren).symm
        rw [hn1k, hvk]
        have horig := hvsspec i hilen
        rw [hnd] at horig
        exact horig
      | Op op a b =>
        rw [hnd] at hren
        obtain ⟨hma, hmb⟩ := hclosed i op a b hnd hmark
        obtain ⟨ha, hb⟩ := valid_getD_ops nodes hvx i op a b hnd
        simp only [renumberNode] at hren
        rw [renumberAux_getD, renumberAux_getD, if_pos hma, if_pos hmb] at hren
        have h3 := (Option.some.inj hren).symm
        rw [Nat.zero_add, Nat.zero_add] at h3
        rw [h3, hvk]
        have hranki2 : countTrue (used.take i) = k := by
          unfold rank at hranki
          exact hranki
        have hrka : countTrue (used.take a) < k := by
          have h5 := rank_lt_rank used a i ha hma
          unfold rank at h5
          omega
        have hrkb : countTrue (used.take b) < k := by
          have h5 := rank_lt_rank used b i hb hmb
          unfold rank at h5
          omega
        have hbnda : countTrue (used.take a) <
            ((survivors used).map (fun i => vs.getD i 0)).length := by
          have h5 := rank_lt_countTrue used a hma
          unfold rank at h5
          omega
        have hbndb : countTrue (used.take b) <
            ((survivors used).map (fun i => vs.getD i 0)).length := by
          have h5 := rank_lt_countTrue used b hmb
          unfold rank at h5
          omega
        rw [evalNode_op_take inputs _ k op _ _ hrka hrkb hbnda hbndb]
        have hva : ((survivors used).map (fun i => vs.getD i 0)).getD
            (countTrue (used.take a)) 0 = vs.getD a 0 := by
          have h4 := hσget (countTrue (used.take a)) (by omega)
          rw [show (survivors used).getD (countTrue (used.take a)) 0 = a from by
            have h5 := hσrank a hma
            unfold rank at h5
            exact h5] at h4
          exact h4
        have hvb : ((survivors used).map (fun i => vs.getD i 0)).getD
            (countTrue (used.take b)) 0 = vs.getD b 0 := by
          have h4 := hσget (countTrue (used.take b)) (by omega)
          rw [show (survivors used).getD (countTrue (used.take b)) 0 = b from by
            have h5 := hσrank b hmb
            unfold rank at h5
            exact h5] at h4
          exact h4
        rw [hva, hvb]
        have horig := hvsspec i hilen
        rw [hnd] at horig
        rw [evalNode_op_take inputs vs i op a b ha hb (by omega) (by omega)] at horig
        exact horig
    rw [hval1]
    apply optionMap_build _ 0 0 outputs1 out
    · rw [holen]
      exact optionMap_length _ _ _ hev
    · intro t ht
      have ht2 : t < outputs.length := by omega
      obtain ⟨hmo, hrto⟩ := hout t ht2
      have hevt := optionMap_getD _ 0 0 _ _ hev t ht2
      have holt : outputs.getD t 0 < vs.length := by
        by_contra hc
        rw [List.getElem?_eq_none (by omega)] at hevt
        cases hevt
      rw [getElem?_eq_some_getD vs 0 _ holt] at hevt
      have hvt := Option.some.inj hevt
      rw [hrto]
      have hbnd : rank used (outputs.getD t 0) <
          ((survivors used).map (fun i => vs.getD i 0)).length := by
        have := rank_lt_countTrue used _ hmo
        omega
      rw [getElem?_eq_some_getD _ 0 _ hbnd]
      have h4 := hσget (rank used (outputs.getD t 0)) (by omega)
      rw [hσrank _ hmo] at h4
      rw [h4, hvt]

theorem eval_agree (op : Operation) (va vb w : Nat) (hva : va < M) (hvb : vb < M)
    (h : op.eval_fr va vb = some w) : op.eval va vb = some w ∧ w < M := by
  cases op with
  | Add =>
    simp only [Operation.eval_fr, Option.some.injEq] at h
    exact ⟨by simp only [Operation.eval, Option.some.injEq]; exact h,
      h ▸ Nat.mod_lt _ (by decide)⟩
  | Sub =>
    simp only [Operation.eval_fr, Option.some.injEq] at h
    rw [Nat.mod_eq_of_lt hvb] at h
    constructor
    · simp only [Operation.eval]
      rw [if_pos (Nat.le_of_lt hvb)]
      simp only [Option.some.injEq]
      exact h
    · exact h ▸ Nat.mod_lt _ (by decide)
  | Mul =>
    simp only [Operation.eval_fr, Option.some.injEq] at h
    exact ⟨by simp only [Operation.eval, Option.some.injEq]; exact h,
      h ▸ Nat.mod_lt _ (by decide)⟩
  | Eq =>
    simp only [Operation.eval_fr, Option.some.injEq] at h
    refine ⟨by simp only [Operation.eval, Option.some.injEq]; exact h, ?_⟩
    split at h <;> (cases h; decide)
  | Neq =>
    simp only [Operation.eval_fr, Option.some.injEq] at h
    refine ⟨by simp only [Operation.eval, Option.some.injEq]; exact h, ?_⟩
    split at h <;> (cases h; decide)
  | Lt =>
    simp only [Operation.eval_fr, Option.some.injEq] at h
    refine ⟨by simp only [Operation.eval, Option.some.injEq]; exact h, ?_⟩
    split at h <;> (cases h; decide)
  | Gt =>
    simp only [Operation.eval_fr, Option.some.injEq] at h
    refine ⟨by simp only [Operation.eval, Option.some.injEq]; exact h, ?_⟩
    split at h <;> (cases h; decide)
  | Leq =>
    simp only [Operation.eval_fr, Option.some.injEq] at h
    refine ⟨by simp only [Operation.eval, Option.some.injEq]; exact h, ?_⟩
    split at h <;> (cases h; decide)
  | Geq =>
    simp only [Operation.eval_fr, Option.some.injEq] at h
    refine ⟨by simp only [Operation.eval, Option.some.injEq]; exact h, ?_⟩
    split at h <;> (cases h; decide)
  | Lor =>
    simp only [Operation.eval_fr, Option.some.injEq] at h
    refine ⟨by simp only [Operation.eval, Option.some.injEq]; exact h, ?_⟩
    split at h <;> (cases h; decide)
  | Shl =>
    have hn : Operation.eval_fr .Shl va vb = none := compute_shl_Fr_none va vb
    rw [hn] at h
    cases h
  | Shr =>
    have hn : Operation.eval_fr .Shr va vb = none := compute_shr_Fr_none va vb
    rw [hn] at h
    cases h
  | Band =>
    have hn : Operation.eval_fr .Band va vb = none := compute_bitand_Fr_none va vb
    rw [hn] at h
    cases h
  | MMul => simp [Operation.eval_fr] at h

theorem trivialEqFold_eval_fr (op : Operation) (c : Bool) (x : Nat)
    (h : trivialEqFold op = some c) :
    op.eval_fr x x = some (if c then 1 else 0) := by
  cases op <;> cases h <;> simp [Operation.eval_fr]

theorem constantsCanonical_getD (nodes : List Node)
    (hcc : constantsCanonical nodes = true) (i : Nat) (hi : i < nodes.length)
    (c : Nat) (h : nodes.getD i (.Input 0) = .Constant c) : c < M := by
  have hmem : nodes.getD i (.Input 0) ∈ nodes :=
    List.getElem?_mem (getElem?_eq_some_getD nodes (.Input 0) i hi)
  rw [h] at hmem
  have := (List.all_eq_true.mp hcc) _ hmem
  simpa using this

theorem tree_shake_preserves_canonical (nodes : List Node) (outputs : List Nat)
    (nodes1 : List Node) (outputs1 : List Nat)
    (hts : tree_shake nodes outputs = some (nodes1, outputs1))
    (hcc : constantsCanonical nodes = true) :
    constantsCanonical nodes1 = true := by
  obtain ⟨used0, hv, hmo, hn1, ho1⟩ := tree_shake_elim nodes outputs nodes1 outputs1 hts
  rw [constantsCanonical, List.all_eq_true]
  intro x hx
  obtain ⟨y, hy, hren⟩ := optionMap_mem _ _ _ hn1 x hx
  have hyn : y ∈ nodes := by
    unfold keepUsed at hy
    obtain ⟨p, hp, hpy⟩ := List.mem_filterMap.mp hy
    by_cases h2 : p.2
    · rw [if_pos h2] at hpy
      cases hpy
      exact (List.of_mem_zip hp).1
    · rw [if_neg h2] at hpy
      cases hpy
  cases hyc : y with
  | Constant c =>
    rw [hyc] at hren
    have hx2 : x = Node.Constant c := (Option.some.inj hren).symm
    rw [hx2]
    exact (List.all_eq_true.mp hcc) _ (hyc ▸ hyn)
  | Input j =>
    rw [hyc] at hren
    have hx2 : x = Node.Input j := (Option.some.inj hren).symm
    rw [hx2]
  | MontConstant c =>
    rw [hyc] at hren
    have hx2 : x = Node.MontConstant c := (Option.some.inj hren).symm
    rw [hx2]
  | Op op a b =>
    rw [hyc] at hren
    simp only [renumberNode] at hren
    cases hra : (renumberAux 0 (markScan nodes used0 nodes.length)).getD a none with
    | none => rw [hra] at hren; cases hren
    | some a2 =>
      cases hrb : (renumberAux 0 (markScan nodes used0 nodes.length)).getD b none with
      | none => rw [hra, hrb] at hren; cases hren
      | some b2 =>
        rw [hra, hrb] at hren
        have hx2 : x = Node.Op op a2 b2 := (Option.some.inj hren).symm
        rw [hx2]

theorem constantsCanonical_of_getD (nodes : List Node)
    (h : ∀ i, i < nodes.length → ∀ c, nodes.getD i (.Input 0) = .Constant c → c < M) :
    constantsCanonical nodes = true := by
  rw [constantsCanonical, List.all_eq_true]
  intro x hx
  obtain ⟨i, hi, hxi⟩ := List.getElem_of_mem hx
  have hgd : nodes.getD i (.Input 0) = x := by
    rw [List.getD_eq_getElem?_getD, List.getElem?_eq_getElem hi, hxi]
    rfl
  cases hxc : x with
  | Constant c =>
    have := h i hi c (by rw [hgd, hxc])
    simpa using this
  | Input j => rfl
  | MontConstant c => rfl
  | Op op a b => rfl

theorem claimFold_shape (env : List Node) (op : Operation) (a b : Nat) :
    (∃ va vb, env.getD a (.Input 0) = .Constant va ∧ env.getD b (.Input 0) = .Constant vb ∧
      claimFold env (.Op op a b) = .Constant ((op.eval va vb).getD 0)) ∨
    (a = b ∧ ∃ c, trivialEqFold op = some c ∧
      claimFold env (.Op op a b) = .Constant (if c then 1 else 0)) ∨
    claimFold env (.Op op a b) = .Op op a b := by
  cases hga : env.getD a (.Input 0) <;> cases hgb : env.getD b (.Input 0) <;>
    simp only [claimFold, hga, hgb] <;>
    first
    | (exact Or.inl ⟨_, _, rfl, rfl, rfl⟩)
    | (by_cases hab : a = b
       · rw [if_pos hab]
         cases htf : trivialEqFold op with
         | some c => exact Or.inr (Or.inl ⟨hab, c, rfl, rfl⟩)
         | none => exact Or.inr (Or.inr rfl)
       · rw [if_neg hab]
         exact Or.inr (Or.inr rfl))

theorem propagate_values (nodes nodes1 : List Node) (inputs vs : List Nat)
    (hp : propagate nodes = some nodes1)
    (hcc : constantsCanonical nodes = true)
    (hv : evaluateValues nodes inputs = some vs) :
    nodes1.length = nodes.length ∧
    ∀ i, i < nodes.length →
      evalNode inputs (vs.take i) (nodes1.getD i (.Input 0)) = some (vs.getD i 0) ∧
      ∀ c, nodes1.getD i (.Input 0) = .Constant c → c < M := by
  unfold propagate at hp
  by_cases hav : assert_valid nodes
  case neg => rw [if_neg hav] at hp; cases hp
  rw [if_pos hav] at hp
  obtain ⟨hlen0, _, hspec⟩ := propagateAux_spec nodes [] nodes1 hp
  simp only [List.length_nil, Nat.zero_add] at hlen0 hspec
  obtain ⟨hvlen, hvspec⟩ := evaluateValues_spec nodes inputs vs hv
  refine ⟨hlen0, ?_⟩
  intro i
  induction i using Nat.strong_induction_on with
  | _ i IH =>
  intro hi
  rcases (hspec i hi).2 with ⟨op, a, b, heq⟩ | ⟨_, hSame⟩
  · have hstep := (hspec i hi).1 op a b heq
    obtain ⟨ha, hb⟩ := (assert_valid_iff nodes).mp hav i hi op a b heq
    rw [propStep_env_take nodes1 i op a b ha hb] at hstep
    have hcf : nodes1.getD i (.Input 0) = claimFold nodes1 (.Op op a b) :=
      propStep_claimFold nodes1 op a b _ hstep
    have horig := hvspec i hi
    rw [heq] at horig
    have ha' : a < nodes.length := by omega
    have hb' : b < nodes.length := by omega
    rw [evalNode_op_take inputs vs i op a b ha hb (by omega) (by omega)] at horig
    rcases claimFold_shape nodes1 op a b with
      ⟨va, vb, hga, hgb, hcf2⟩ | ⟨hab, c, htf, hcf2⟩ | hcf2
    · have hIa := IH a ha ha'
      have hIb := IH b hb hb'
      have hva : va < M := hIa.2 va hga
      have hvb : vb < M := hIb.2 vb hgb
      have hvA : vs.getD a 0 = va := by
        have h1 := hIa.1
        rw [hga] at h1
        simp only [evalNode, frNew, Nat.mod_eq_of_lt hva, Option.some.injEq] at h1
        exact h1.symm
      have hvB : vs.getD b 0 = vb := by
        have h1 := hIb.1
        rw [hgb] at h1
        simp only [evalNode, frNew, Nat.mod_eq_of_lt hvb, Option.some.injEq] at h1
        exact h1.symm
      rw [hvA, hvB] at horig
      obtain ⟨heval, hwlt⟩ := eval_agree op va vb (vs.getD i 0) hva hvb horig
      have hni : nodes1.getD i (.Input 0) = .Constant (vs.getD i 0) := by
        rw [hcf, hcf2, heval]
        rfl
      refine ⟨?_, ?_⟩
      · rw [hni]
        simp only [evalNode, frNew, Nat.mod_eq_of_lt hwlt]
      · intro c2 hc
        rw [hni] at hc
        injection hc with h2
        subst h2
        exact hwlt
    · have htr := trivialEqFold_eval_fr op c (vs.getD a 0) htf
      subst hab
      rw [horig] at htr
      have hvi : vs.getD i 0 = if c then 1 else 0 := Option.some.inj htr
      have hni : nodes1.getD i (.Input 0) = .Constant (if c then 1 else 0) := by
        rw [hcf, hcf2]
      refine ⟨?_, ?_⟩
      · rw [hni, hvi]
        simp only [evalNode, frNew]
        congr 1
        cases c <;> decide
      · intro c2 hc
        rw [hni] at hc
        injection hc with h2
        subst h2
        cases c <;> decide
    · have hni : nodes1.getD i (.Input 0) = .Op op a b := hcf.trans hcf2
      refine ⟨?_, ?_⟩
      · rw [hni, evalNode_op_take inputs vs i op a b ha hb (by omega) (by omega)]
        exact horig
      · intro c2 hc
        rw [hni] at hc
        cases hc
  · refine ⟨?_, ?_⟩
    · rw [hSame]
      exact hvspec i hi
    · intro c2 hc
      rw [hSame] at hc
      exact constantsCanonical_getD nodes hcc i hi c2 hc

theorem propagate_preserves (nodes nodes1 : List Node) (inputs vs : List Nat)
    (hp : propagate nodes = some nodes1)
    (hcc : constantsCanonical nodes = true)
    (hv : evaluateValues nodes inputs = some vs) :
    nodes1.length = nodes.length ∧
    evaluateValues nodes1 inputs = some vs ∧
    constantsCanonical nodes1 = true := by
  obtain ⟨hlen, hmain⟩ := propagate_values nodes nodes1 inputs vs hp hcc hv
  have hvlen : vs.length = nodes.length := (evaluateValues_spec nodes inputs vs hv).1
  refine ⟨hlen, ?_, ?_⟩
  · apply evaluateValues_build nodes1 inputs vs (by omega)
    intro k hk
    exact (hmain k (by omega)).1
  · apply constantsCanonical_of_getD nodes1
    intro i hi c hc
    exact (hmain i (by omega)).2 c hc

theorem lt_length_of_getElem?_some {α : Type} (l : List α) (i : Nat) (x : α)
    (h : l[i]? = some x) : i < l.length := by
  by_contra hc
  rw [List.getElem?_eq_none (by omega)] at h
  cases h

theorem map_getElem?_some {α β : Type} (f : α → β) (l : List α) (d : α) (i : Nat)
    (h : i < l.length) : (l.map f)[i]? = some (f (l.getD i d)) := by
  rw [List.getElem?_map, getElem?_eq_some_getD l d i h]
  rfl

theorem value_numbering_preserves (nodes nodes1 : List Node)
    (outputs outputs1 : List Nat) (rng rng1 : Rng)
    (inputs vs values : List Nat)
    (hvn : value_numbering nodes outputs rng = some (nodes1, outputs1, rng1))
    (hre : random_eval nodes rng = some (values, rng1))
    (hv : evaluateValues nodes inputs = some vs)
    (hcc : constantsCanonical nodes = true)
    (hcoll : ∀ i j, i < nodes.length → j < nodes.length →
      values.getD i 0 = values.getD j 0 → vs.getD i 0 = vs.getD j 0) :
    nodes1.length = nodes.length ∧
    evaluateValues nodes1 inputs = some vs ∧
    constantsCanonical nodes1 = true ∧
    outputs1.length = outputs.length ∧
    ∀ k, k < outputs.length →
      vs[outputs1.getD k 0]? = vs[outputs.getD k 0]? := by
  obtain ⟨values2, hav, hre2, hn1, ho1⟩ :=
    value_numbering_elim nodes outputs rng nodes1 outputs1 rng1 hvn
  rw [hre] at hre2
  have hveq : values = values2 := (Prod.ext_iff.mp (Option.some.inj hre2)).1
  subst hveq
  have hvlen : vs.length = nodes.length := (evaluateValues_spec nodes inputs vs hv).1
  have hvspec := (evaluateValues_spec nodes inputs vs hv).2
  have hrel : values.length = nodes.length := random_eval_length nodes rng values rng1 hre
  have hn1len : nodes1.length = nodes.length := optionMap_length _ nodes nodes1 hn1
  have ho1len : outputs1.length = outputs.length := optionMap_length _ outputs outputs1 ho1
  have hfix : ∀ a, a < nodes.length →
      firstIdx values (values.getD a 0) ≤ a ∧
      firstIdx values (values.getD a 0) < nodes.length ∧
      vs.getD (firstIdx values (values.getD a 0)) 0 = vs.getD a 0 := by
    intro a ha
    have h1 : firstIdx values (values.getD a 0) ≤ a := firstIdx_le values a (by omega)
    have h2 : firstIdx values (values.getD a 0) < values.length :=
      firstIdx_lt_length values _ ⟨a, by omega, rfl⟩
    have h3 : values.getD (firstIdx values (values.getD a 0)) 0 = values.getD a 0 :=
      firstIdx_getD values _ ⟨a, by omega, rfl⟩
    exact ⟨h1, by omega, hcoll _ a (by omega) ha h3⟩
  have hrenA : ∀ a, a < nodes.length →
      (values.map (fun v => firstIdx values v))[a]? =
        some (firstIdx values (values.getD a 0)) :=
    fun a ha => map_getElem?_some _ values 0 a (by omega)
  have hnchar : ∀ k, k < nodes.length →
      evalNode inputs (vs.take k) (nodes1.getD k (.Input 0)) = some (vs.getD k 0) ∧
      ∀ c, nodes1.getD k (.Input 0) = .Constant c → c < M := by
    intro k hk
    have hfk := optionMap_getD _ (Node.Input 0) (Node.Input 0) nodes nodes1 hn1 k hk
    cases hnk : nodes.getD k (.Input 0) with
    | Op op a b =>
      simp only [hnk] at hfk
      obtain ⟨ha, hb⟩ := (assert_valid_iff nodes).mp hav k hk op a b hnk
      have ha' : a < nodes.length := by omega
      have hb' : b < nodes.length := by omega
      rw [hrenA a ha', hrenA b hb'] at hfk
      simp only [Option.some.injEq] at hfk
      obtain ⟨haa1, haa2, haa3⟩ := hfix a ha'
      obtain ⟨hbb1, hbb2, hbb3⟩ := hfix b hb'
      refine ⟨?_, ?_⟩
      · rw [← hfk]
        rw [evalNode_op_take inputs vs k op (firstIdx values (values.getD a 0))
          (firstIdx values (values.getD b 0)) (by omega) (by omega) (by omega) (by omega)]
        rw [haa3, hbb3]
        have horig := hvspec k hk
        rw [hnk, evalNode_op_take inputs vs k op a b ha hb (by omega) (by omega)] at horig
        exact horig
      · intro c2 hc
        rw [← hfk] at hc
        cases hc
    | Input j =>
      simp only [hnk] at hfk
      have hsame : nodes1.getD k (.Input 0) = .Input j := (Option.some.inj hfk).symm
      refine ⟨?_, ?_⟩
      · rw [hsame, ← hnk]
        exact hvspec k hk
      · intro c2 hc
        rw [hsame] at hc
        cases hc
    | Constant c =>
      simp only [hnk] at hfk
      have hsame : nodes1.getD k (.Input 0) = .Constant c := (Option.some.inj hfk).symm
      refine ⟨?_, ?_⟩
      · rw [hsame, ← hnk]
        exact hvspec k hk
      · intro c2 hc
        rw [hsame] at hc
        injection hc with h2
        subst h2
        exact constantsCanonical_getD nodes hcc k hk c hnk
    | MontConstant c =>
      simp only [hnk] at hfk
      have hsame : nodes1.getD k (.Input 0) = .MontConstant c := (Option.some.inj hfk).symm
      refine ⟨?_, ?_⟩
      · rw [hsame, ← hnk]
        exact hvspec k hk
      · intro c2 hc
        rw [hsame] at hc
        cases hc
  refine ⟨hn1len, ?_, ?_, ho1len, ?_⟩
  · apply evaluateValues_build nodes1 inputs vs (by omega)
    intro k hk
    exact (hnchar k (by omega)).1
  · apply constantsCanonical_of_getD nodes1
    intro i hi c hc
    exact (hnchar i (by omega)).2 c hc
  · intro k hk
    have hok := optionMap_getD _ 0 0 outputs outputs1 ho1 k hk
    have holt : outputs.getD k 0 < nodes.length := by
      have h1 := lt_length_of_getElem?_some _ _ _ hok
      rw [List.length_map] at h1
      omega
    rw [hrenA _ holt] at hok
    have ho1k : outputs1.getD k 0 = firstIdx values (values.getD (outputs.getD k 0) 0) :=
      (Option.some.inj hok).symm
    obtain ⟨h1, h2, h3⟩ := hfix (outputs.getD k 0) holt
    rw [ho1k]
    rw [getElem?_eq_some_getD vs 0
      (firstIdx values (values.getD (outputs.getD k 0) 0)) (by omega)]
    rw [getElem?_eq_some_getD vs 0 (outputs.getD k 0) (by omega)]
    rw [h3]

theorem range_map_getD {α : Type} (n : Nat) (f : Nat → α) (d : α) (i : Nat)
    (h : i < n) : ((List.range n).map f).getD i d = f i := by
  rw [List.getD_eq_getElem?_getD, List.getElem?_map, List.getElem?_range h]
  rfl

theorem constants_preserves (nodes nodes1 : List Node) (rng rng1 rngA : Rng)
    (inputs vs va vb : List Nat)
    (hct : constants nodes rng = some (nodes1, rng1))
    (hra : random_eval nodes rng = some (va, rngA))
    (hrb : random_eval nodes rngA = some (vb, rng1))
    (hv : evaluateValues nodes inputs = some vs)
    (hcc : constantsCanonical nodes = true)
    (hagree : ∀ i, i < nodes.length → va.getD i 0 = vb.getD i 0 →
      va.getD i 0 = vs.getD i 0) :
    nodes1.length = nodes.length ∧
    evaluateValues nodes1 inputs = some vs ∧
    constantsCanonical nodes1 = true := by
  obtain ⟨va2, rngA2, vb2, hav, hra2, hrb2, hn1⟩ := constants_elim nodes rng nodes1 rng1 hct
  rw [hra] at hra2
  have h1 : va = va2 := (Prod.ext_iff.mp (Option.some.inj hra2)).1
  have h1b : rngA = rngA2 := (Prod.ext_iff.mp (Option.some.inj hra2)).2
  subst h1
  subst h1b
  rw [hrb] at hrb2
  have h2 : vb = vb2 := (Prod.ext_iff.mp (Option.some.inj hrb2)).1
  subst h2
  have hvlen : vs.length = nodes.length := (evaluateValues_spec nodes inputs vs hv).1
  have hvspec := (evaluateValues_spec nodes inputs vs hv).2
  have hallM : ∀ v ∈ vs, v < M :=
    evalAux_all_lt inputs nodes [] vs hv (by intro v hvv; simp at hvv)
  have hvsM : ∀ k, k < nodes.length → vs.getD k 0 < M := by
    intro k hk
    exact hallM _ (List.getElem?_mem (getElem?_eq_some_getD vs 0 k (by omega)))
  have hlen : nodes1.length = nodes.length := by rw [hn1]; simp
  have hnchar : ∀ k, k < nodes.length →
      evalNode inputs (vs.take k) (nodes1.getD k (.Input 0)) = some (vs.getD k 0) ∧
      ∀ c, nodes1.getD k (.Input 0) = .Constant c → c < M := by
    intro k hk
    have hgi : nodes1.getD k (.Input 0) =
        (fun i => match nodes.getD i (.Input 0) with
          | .Constant c => Node.Constant c
          | n => if va.getD i 0 = vb.getD i 0 then .Constant (va.getD i 0) else n) k := by
      rw [hn1]
      exact range_map_getD nodes.length _ _ k hk
    cases hnk : nodes.getD k (.Input 0) with
    | Constant c =>
      simp only [hnk] at hgi
      refine ⟨?_, ?_⟩
      · rw [hgi, ← hnk]
        exact hvspec k hk
      · intro c2 hc
        rw [hgi] at hc
        injection hc with h3
        subst h3
        exact constantsCanonical_getD nodes hcc k hk c hnk
    | Input j =>
      simp only [hnk] at hgi
      by_cases hab : va.getD k 0 = vb.getD k 0
      · rw [if_pos hab] at hgi
        have hval : va.getD k 0 = vs.getD k 0 := hagree k hk hab
        rw [hval] at hgi
        refine ⟨?_, ?_⟩
        · rw [hgi]
          simp only [evalNode, frNew, Nat.mod_eq_of_lt (hvsM k hk)]
        · intro c2 hc
          rw [hgi] at hc
          injection hc with h3
          subst h3
          exact hvsM k hk
      · rw [if_neg hab] at hgi
        refine ⟨?_, ?_⟩
        · rw [hgi, ← hnk]
          exact hvspec k hk
        · intro c2 hc
          rw [hgi] at hc
          cases hc
    | MontConstant c =>
      simp only [hnk] at hgi
      by_cases hab : va.getD k 0 = vb.getD k 0
      · rw [if_pos hab] at hgi
        have hval : va.getD k 0 = vs.getD k 0 := hagree k hk hab
        rw [hval] at hgi
        refine ⟨?_, ?_⟩
        · rw [hgi]
          simp only [evalNode, frNew, Nat.mod_eq_of_lt (hvsM k hk)]
        · intro c2 hc
          rw [hgi] at hc
          injection hc with h3
          subst h3
          exact hvsM k hk
      · rw [if_neg hab] at hgi
        refine ⟨?_, ?_⟩
        · rw [hgi, ← hnk]
          exact hvspec k hk
        · intro c2 hc
          rw [hgi] at hc
          cases hc
    | Op op a b =>
      simp only [hnk] at hgi
      by_cases hab : va.getD k 0 = vb.getD k 0
      · rw [if_pos hab] at hgi
        have hval : va.getD k 0 = vs.getD k 0 := hagree k hk hab
        rw [hval] at hgi
        refine ⟨?_, ?_⟩
        · rw [hgi]
          simp only [evalNode, frNew, Nat.mod_eq_of_lt (hvsM k hk)]
        · intro c2 hc
          rw [hgi] at hc
          injection hc with h3
          subst h3
          exact hvsM k hk
      · rw [if_neg hab] at hgi
        refine ⟨?_, ?_⟩
        · rw [hgi, ← hnk]
          exact hvspec k hk
        · intro c2 hc
          rw [hgi] at hc
          cases hc
  refine ⟨hlen, ?_, ?_⟩
  · apply evaluateValues_build nodes1 inputs vs (by omega)
    intro k hk
    exact (hnchar k (by omega)).1
  · apply constantsCanonical_of_getD nodes1
    intro i hi c hc
    exact (hnchar i (by omega)).2 c hc

theorem montgomery_preserves (nodes : List Node) (inputs vs : List Nat)
    (hv : evaluateValues nodes inputs = some vs) :
    evaluateValues (montgomery_form nodes) inputs = some vs := by
  have hvlen : vs.length = nodes.length := (evaluateValues_spec nodes inputs vs hv).1
  have hvspec := (evaluateValues_spec nodes inputs vs hv).2
  have hmlen : (montgomery_form nodes).length = nodes.length := by
    unfold montgomery_form
    simp
  apply evaluateValues_build (montgomery_form nodes) inputs vs (by omega)
  intro k hk
  rw [hmlen] at hk
  have hgd : (montgomery_form nodes).getD k (.Input 0) =
      (fun n => match n with
        | Node.Constant c => Node.MontConstant (frNew c)
        | n => n) (nodes.getD k (.Input 0)) := by
    unfold montgomery_form
    rw [List.getD_eq_getElem?_getD, List.getElem?_map,
      getElem?_eq_some_getD nodes (.Input 0) k hk]
    rfl
  cases hnk : nodes.getD k (.Input 0) with
  | Constant c =>
    simp only [hnk] at hgd
    have horig := hvspec k hk
    rw [hnk] at horig
    simp only [evalNode, Option.some.injEq] at horig
    rw [hgd]
    simp only [evalNode, Option.some.injEq]
    rw [← horig, frNew]
    exact Nat.mod_mod_of_dvd _ (dvd_refl M)
  | Input j =>
    simp only [hnk] at hgd
    rw [hgd, ← hnk]
    exact hvspec k hk
  | MontConstant c =>
    simp only [hnk] at hgd
    rw [hgd, ← hnk]
    exact hvspec k hk
  | Op op a b =>
    simp only [hnk] at hgd
    rw [hgd, ← hnk]
    exact hvspec k hk

/-- C1 (amended): the claim as frozen ("for every sequence of random draws")
is refuted by `optimize_draw_dependent_cex`; this is the corrected statement.
Whenever `optimize` runs its six passes to completion — with the given
intermediate graphs, draw outcomes, and value vector — and the run is
collision-free (equal value-numbering draws occur only between nodes that
agree under the given input, and the constants pass's two draws agree at a
node only when the drawn value is the node's true value), then for a graph
whose `Constant` payloads are canonical the optimized graph evaluates to
exactly the same outputs as the original on that input. -/
theorem optimize_preserves_evaluate
    (nodes n1 n2 n3 n4 n5 : List Node)
    (outputs o1 o3 o5 : List Nat)
    (rng rng1 rngA rng2 : Rng)
    (inputs out vs values va vb : List Nat)
    (hcc : constantsCanonical nodes = true)
    (hev : evaluate nodes inputs outputs = some out)
    (hts1 : tree_shake nodes outputs = some (n1, o1))
    (hpr : propagate n1 = some n2)
    (hvn : value_numbering n2 o1 rng = some (n3, o3, rng1))
    (hct : constants n3 rng1 = some (n4, rng2))
    (hts2 : tree_shake n4 o3 = some (n5, o5))
    (hv1 : evaluateValues n1 inputs = some vs)
    (hre : random_eval n2 rng = some (values, rng1))
    (hra : random_eval n3 rng1 = some (va, rngA))
    (hrb : random_eval n3 rngA = some (vb, rng2))
    (hcoll : ∀ i, i < n2.length → ∀ j, j < n2.length →
      values.getD i 0 = values.getD j 0 → vs.getD i 0 = vs.getD j 0)
    (hagree : ∀ i, i < n3.length → va.getD i 0 = vb.getD i 0 →
      va.getD i 0 = vs.getD i 0) :
    optimize nodes outputs rng = some (montgomery_form n5, o5) ∧
    evaluate (montgomery_form n5) inputs o5 = some out := by
  constructor
  · unfold optimize
    rw [hts1]
    simp only [Option.bind_eq_bind, Option.some_bind]
    rw [hpr]
    simp only [Option.some_bind]
    rw [hvn]
    simp only [Option.some_bind]
    rw [hct]
    simp only [Option.some_bind]
    rw [hts2]
    simp only [Option.some_bind]
  · have ev1 : evaluate n1 inputs o1 = some out :=
      tree_shake_preserves_evaluate nodes outputs n1 o1 inputs out hts1 hev
    have cc1 : constantsCanonical n1 = true :=
      tree_shake_preserves_canonical nodes outputs n1 o1 hts1 hcc
    unfold evaluate at ev1
    simp only [hv1] at ev1
    obtain ⟨plen, pvv, pcc⟩ := propagate_preserves n1 n2 inputs vs hpr cc1 hv1
    obtain ⟨len3, vv3, cc3, o3len, hperk⟩ :=
      value_numbering_preserves n2 n3 o1 o3 rng rng1 inputs vs values hvn hre pvv pcc
        (fun i j hi hj => hcoll i hi j hj)
    obtain ⟨len4, vv4, cc4⟩ :=
      constants_preserves n3 n4 rng1 rng2 rngA inputs vs va vb hct hra hrb vv3 cc3 hagree
    have houtlen : out.length = o1.length := optionMap_length _ o1 out ev1
    have ev4 : evaluate n4 inputs o3 = some out := by
      unfold evaluate
      simp only [vv4]
      apply optionMap_build _ 0 0 o3 out (by omega)
      intro k hk
      rw [hperk k (by omega)]
      exact optionMap_getD _ 0 0 o1 out ev1 k (by omega)
    have ev5 : evaluate n5 inputs o5 = some out :=
      tree_shake_preserves_evaluate n4 o3 n5 o5 inputs out hts2 ev4
    unfold evaluate at ev5 ⊢
    cases hvs5 : evaluateValues n5 inputs with
    | none => rw [hvs5] at ev5; cases ev5
    | some vs5 =>
      simp only [hvs5] at ev5
      simp only [montgomery_preserves n5 inputs vs5 hvs5]
      exact ev5

/-- Witness for the amended C1 theorem: a concrete five-node graph, input
`[3, 4]`, and the collision-free draw stream `1, 2` / `1, 2` / `3, 4`; the
pipeline keeps the graph (rewriting `Constant 5` into Montgomery form) and
the optimized graph still evaluates to `[35]`. -/
theorem optimize_preserves_evaluate_witness :
    optimize [Node.Input 0, Node.Input 1, Node.Constant 5,
        Node.Op .Add 0 1, Node.Op .Mul 3 2] [4] ⟨[1, 2, 1, 2, 3, 4], 0⟩ =
      some (montgomery_form [Node.Input 0, Node.Input 1, Node.Constant 5,
        Node.Op .Add 0 1, Node.Op .Mul 3 2], [4]) ∧
    evaluate (montgomery_form [Node.Input 0, Node.Input 1, Node.Constant 5,
        Node.Op .Add 0 1, Node.Op .Mul 3 2]) [3, 4] [4] = some [35] :=
  optimize_preserves_evaluate
    [Node.Input 0, Node.Input 1, Node.Constant 5, Node.Op .Add 0 1, Node.Op .Mul 3 2]
    [Node.Input 0, Node.Input 1, Node.Constant 5, Node.Op .Add 0 1, Node.Op .Mul 3 2]
    [Node.Input 0, Node.Input 1, Node.Constant 5, Node.Op .Add 0 1, Node.Op .Mul 3 2]
    [Node.Input 0, Node.Input 1, Node.Constant 5, Node.Op .Add 0 1, Node.Op .Mul 3 2]
    [Node.Input 0, Node.Input 1, Node.Constant 5, Node.Op .Add 0 1, Node.Op .Mul 3 2]
    [Node.Input 0, Node.Input 1, Node.Constant 5, Node.Op .Add 0 1, Node.Op .Mul 3 2]
    [4] [4] [4] [4]
    ⟨[1, 2, 1, 2, 3, 4], 0⟩ ⟨[1, 2, 1, 2, 3, 4], 2⟩ ⟨[1, 2, 1, 2, 3, 4], 4⟩
    ⟨[1, 2, 1, 2, 3, 4], 6⟩
    [3, 4] [35] [3, 4, 5, 7, 35] [1, 2, 5, 3, 15] [1, 2, 5, 3, 15] [3, 4, 5, 7, 35]
    (by decide) (by decide) (by decide) (by decide) (by decide) (by decide)
    (by decide) (by decide) (by decide) (by decide) (by decide) (by decide)
    (by decide)
